import Mathlib

/-!
# Verification of the `primes` crate (`src/src/lib.rs`)

Shallow embedding of an incremental cached prime generator based on a
modulo-30 wheel, plus its public query surface (`primes_upto`,
`nth_prime`, `is_prime`, `factorize`, `clear_prime_cache`).

Loops that the Rust source runs without an intrinsic bound are given an
explicit `fuel` parameter; a `none` result models either fuel running out
(so statements about non-termination read "`none` for every fuel") or a
Rust panic (an `unwrap` of an empty list, or an out-of-bounds index),
as noted at each definition.
-/

/-- `const WHEEL_PRIMES: [u64; 3] = [2, 3, 5]` (lib.rs line 4). -/
def WHEEL_PRIMES : List Nat := [2, 3, 5]

/-- `const WHEEL_MODULUS: u64 = 30` (lib.rs line 5). -/
def WHEEL_MODULUS : Nat := 30

/-- `const WHEEL: [u64; 8] = [1, 7, 11, 13, 17, 19, 23, 29]` (lib.rs line 6). -/
def WHEEL : List Nat := [1, 7, 11, 13, 17, 19, 23, 29]

/-- `struct GlobalPrimes` (lib.rs lines 8-12): the thread-local prime
cache plus the wheel cursor. -/
structure GlobalPrimes where
  primes : List Nat
  wheel_index : Nat
  wheel_base : Nat
deriving DecidableEq

/-- `GlobalPrimes::reset` (lib.rs 27-32): clear the list, re-seed it with
`WHEEL_PRIMES`, and reset the wheel cursor to `(base 0, index 1)`. -/
def GlobalPrimes.reset (_gp : GlobalPrimes) : GlobalPrimes :=
  { primes := WHEEL_PRIMES, wheel_index := 1, wheel_base := 0 }

/-- `GlobalPrimes::new` (lib.rs 14-25): a fresh cache (capacity is not
observable and is not modelled). -/
def GlobalPrimes.new : GlobalPrimes :=
  GlobalPrimes.reset { primes := [], wheel_index := 0, wheel_base := 0 }

/-- `GlobalPrimes::last_prime` (lib.rs 34-36):
`self.primes.last().copied().unwrap()`.  `none` models the `unwrap`
panic on an empty cache. -/
def GlobalPrimes.last_prime (gp : GlobalPrimes) : Option Nat :=
  gp.primes.getLast?

/-- The candidate `self.wheel_base + WHEEL[self.wheel_index]` computed at
lib.rs 44 and 64.  An out-of-range `wheel_index` (impossible in reachable
states) is given default entry 0. -/
def GlobalPrimes.curCandidate (gp : GlobalPrimes) : Nat :=
  gp.wheel_base + WHEEL.getD gp.wheel_index 0

/-- The cursor advance at lib.rs 46-50 and 66-70: increment `wheel_index`;
when it reaches `WHEEL.len()` wrap to 0 and add `WHEEL_MODULUS` to
`wheel_base`. -/
def GlobalPrimes.advanceWheel (gp : GlobalPrimes) : GlobalPrimes :=
  if gp.wheel_index + 1 = WHEEL.length then
    { gp with wheel_index := 0, wheel_base := gp.wheel_base + WHEEL_MODULUS }
  else
    { gp with wheel_index := gp.wheel_index + 1 }

/-- The unbounded `loop` of `GlobalPrimes::generate_upto` (lib.rs 43-59):
pull a candidate, advance the cursor, append the candidate if no cached
prime divides it, and stop once an appended candidate is `>= max`. -/
def generateUptoLoop (max : Nat) : GlobalPrimes → Nat → Option GlobalPrimes
  | _, 0 => none
  | gp, fuel + 1 =>
    let candidate := gp.curCandidate
    let gp1 := gp.advanceWheel
    if gp1.primes.all (fun prime => candidate % prime != 0) then
      let gp2 := { gp1 with primes := gp1.primes ++ [candidate] }
      if candidate ≥ max then some gp2
      else generateUptoLoop max gp2 fuel
    else
      generateUptoLoop max gp1 fuel

/-- `GlobalPrimes::generate_upto` (lib.rs 38-60): fast-path return when
`max <= last_prime()`, else run the candidate loop. -/
def GlobalPrimes.generate_upto (gp : GlobalPrimes) (max : Nat) (fuel : Nat) :
    Option GlobalPrimes :=
  match gp.last_prime with
  | none => none
  | some last => if max ≤ last then some gp else generateUptoLoop max gp fuel

/-- The `while` loop of `GlobalPrimes::generate_count` (lib.rs 63-75):
same candidate step, run while fewer than `count` primes are cached. -/
def generateCountLoop (count : Nat) : GlobalPrimes → Nat → Option GlobalPrimes
  | gp, fuel =>
    if gp.primes.length < count then
      match fuel with
      | 0 => none
      | fuel + 1 =>
        let candidate := gp.curCandidate
        let gp1 := gp.advanceWheel
        if gp1.primes.all (fun prime => candidate % prime != 0) then
          generateCountLoop count { gp1 with primes := gp1.primes ++ [candidate] } fuel
        else
          generateCountLoop count gp1 fuel
    else some gp

/-- `GlobalPrimes::generate_count` (lib.rs 62-76). -/
def GlobalPrimes.generate_count (gp : GlobalPrimes) (count : Nat) (fuel : Nat) :
    Option GlobalPrimes :=
  generateCountLoop count gp fuel

/-- `struct Primes` (lib.rs 83-85): the public iterator, a bare cursor
into the thread-local cache. -/
structure Primes where
  prime_index : Nat
deriving DecidableEq

/-- `Primes::new` (lib.rs 87-91). -/
def Primes.new : Primes := { prime_index := 0 }

/-- `<Primes as Iterator>::next` (lib.rs 96-110): if `prime_index` is not
within the cached list, extend with `generate_upto((last_prime * 3) / 2)`;
then read `primes[prime_index]` and increment the index.  `none` models
fuel exhaustion inside the extension, the `last_prime` unwrap on an empty
cache, or the panicking out-of-bounds read `primes[prime_index]`. -/
def primesNext (fuel : Nat) (gp : GlobalPrimes) (it : Primes) :
    Option (Nat × GlobalPrimes × Primes) :=
  let extended : Option GlobalPrimes :=
    if gp.primes.length ≤ it.prime_index then
      match gp.last_prime with
      | none => none
      | some last => gp.generate_upto (last * 3 / 2) fuel
    else some gp
  match extended with
  | none => none
  | some gp1 =>
    match gp1.primes.get? it.prime_index with
    | none => none
    | some p => some (p, gp1, { prime_index := it.prime_index + 1 })

/-- Driving a `Primes` iterator `k` times, collecting the yielded values
(the consumption pattern of lib.rs tests and of `nth` element access). -/
def primesTake (gp : GlobalPrimes) (it : Primes) (fuel : Nat) :
    Nat → Option (List Nat × GlobalPrimes × Primes)
  | 0 => some ([], gp, it)
  | k + 1 =>
    match primesNext fuel gp it with
    | none => none
    | some (p, gp1, it1) =>
      match primesTake gp1 it1 fuel k with
      | none => none
      | some (l, gp2, it2) => some (p :: l, gp2, it2)

/-- Collecting `Primes::new().take_while(|&p| p <= max)`, the body of
`primes_upto` (lib.rs 119-121): drive the iterator, keep values `<= max`,
stop at the first larger one. -/
def primesUptoRun (max : Nat) : GlobalPrimes → Primes → List Nat → Nat →
    Option (List Nat × GlobalPrimes × Primes)
  | _, _, _, 0 => none
  | gp, it, acc, fuel + 1 =>
    match primesNext fuel gp it with
    | none => none
    | some (p, gp1, it1) =>
      if p ≤ max then primesUptoRun max gp1 it1 (acc ++ [p]) fuel
      else some (acc, gp1, it1)

/-- `primes_upto(max)` (lib.rs 119-121), run to completion in cache state
`gp` and collected into a list. -/
def primes_upto (gp : GlobalPrimes) (max : Nat) (fuel : Nat) : Option (List Nat) :=
  (primesUptoRun max gp Primes.new [] fuel).map (fun r => r.1)

/-- `nth_prime(k)` (lib.rs 123-130): `generate_count(k + 1)` then read
`primes[k]` (the out-of-bounds panic is modelled by `none`). -/
def nth_prime (gp : GlobalPrimes) (k : Nat) (fuel : Nat) :
    Option (Nat × GlobalPrimes) :=
  match gp.generate_count (k + 1) fuel with
  | none => none
  | some gp1 =>
    match gp1.primes.get? k with
    | none => none
    | some p => some (p, gp1)

/-- The halving loop of `slice::binary_search` as invoked at lib.rs 158:
maintain `lo < hi` bracketing, probe the midpoint, and answer whether
`target` was found.  `fuel` bounds the iteration count; the initial call
supplies more fuel than the interval length, which is enough. -/
def binarySearchGo (xs : List Nat) (target : Nat) : Nat → Nat → Nat → Bool
  | _, _, 0 => false
  | lo, hi, fuel + 1 =>
    if lo < hi then
      let mid := (lo + hi) / 2
      let x := xs.getD mid 0
      if x < target then binarySearchGo xs target (mid + 1) hi fuel
      else if target < x then binarySearchGo xs target lo mid fuel
      else true
    else false

/-- `self.primes.binary_search(&n).is_ok()` (lib.rs 158). -/
def binarySearchContains (xs : List Nat) (target : Nat) : Bool :=
  binarySearchGo xs target 0 xs.length (xs.length + 1)

/-- `is_prime(n)` (lib.rs 153-160): `generate_upto(n)` then binary-search
the cached list for `n`. -/
def is_prime (gp : GlobalPrimes) (n : Nat) (fuel : Nat) :
    Option (Bool × GlobalPrimes) :=
  match gp.generate_upto n fuel with
  | none => none
  | some gp1 => some (binarySearchContains gp1.primes n, gp1)

/-- The inner `while k % p == 0` loop of `factorize` (lib.rs 138-141):
divide `p` out of `k`, appending one copy of `p` per division.  `none`
models non-termination (for `k = 0` the residue stays 0 forever). -/
def divideOut (p : Nat) : Nat → List Nat → Nat → Option (Nat × List Nat)
  | k, acc, fuel =>
    if k % p = 0 then
      match fuel with
      | 0 => none
      | fuel + 1 => divideOut p (k / p) (acc ++ [p]) fuel
    else some (k, acc)

/-- The outer `for p in primes()` loop of `factorize` (lib.rs 137-146):
for each yielded prime divide it out of the residue, and break once the
residue reaches 1. -/
def factorizeLoop : GlobalPrimes → Primes → Nat → List Nat → Nat →
    Option (Nat × List Nat × GlobalPrimes)
  | _, _, _, _, 0 => none
  | gp, it, k, acc, fuel + 1 =>
    match primesNext fuel gp it with
    | none => none
    | some (p, gp1, it1) =>
      match divideOut p k acc fuel with
      | none => none
      | some (k1, acc1) =>
        if k1 = 1 then some (k1, acc1, gp1)
        else factorizeLoop gp1 it1 k1 acc1 fuel

/-- `factorize(n, factors)` (lib.rs 132-151).  The caller-supplied buffer
`factors` is cleared on entry (its prior contents are discarded); after
the loop, if the buffer is still empty, `n` itself is pushed. -/
def factorize (gp : GlobalPrimes) (n : Nat) (factors : List Nat) (fuel : Nat) :
    Option (List Nat × GlobalPrimes) :=
  let _cleared := factors
  match factorizeLoop gp Primes.new n [] fuel with
  | none => none
  | some (_, acc, gp1) =>
    some ((if acc.isEmpty then acc ++ [n] else acc), gp1)

/-- `clear_prime_cache()` (lib.rs 162-166). -/
def clear_prime_cache (gp : GlobalPrimes) : GlobalPrimes :=
  gp.reset

/-! ## Specification-side definitions -/

/-- The primes below `n`, in increasing order (specification side). -/
def primesBelowL (n : Nat) : List Nat :=
  (List.range n).filter (fun m => @decide (Nat.Prime m) (Nat.decidablePrime1 m))

/-- The number of primes below `n`; `primeCount p = k` for a prime `p`
says exactly that `p` is the zero-indexed `k`-th prime. -/
def primeCount (n : Nat) : Nat :=
  (primesBelowL n).length

/-- The naive trial-division sieve over `[2, max]`, embedded from the
crate's own test helper `dumb_prime_generator` (lib.rs 172-182), which is
the spec's "naive sieve-by-trial-division of the integers in `[2, M]`". -/
def dumbPrimeGenerator (max : Nat) : List Nat :=
  (List.range' 2 (max - 1)).foldl
    (fun ps candidate =>
      if ps.all (fun prime => candidate % prime != 0) then ps ++ [candidate] else ps)
    []

/-- The Prime Cache invariant (spec section 3): the cursor is well formed,
the current candidate is at least 7, and the cached list is exactly the
ascending list of all primes below the current candidate. -/
structure CacheInv (gp : GlobalPrimes) : Prop where
  wi_lt : gp.wheel_index < 8
  base_mod : gp.wheel_base % 30 = 0
  seven_le : 7 ≤ gp.curCandidate
  primes_eq : gp.primes = primesBelowL gp.curCandidate

/-- States of the Prime Cache reachable through construction, reset and
the two extension operations (with any fuel that lets them return). -/
inductive Reachable : GlobalPrimes → Prop
  | new : Reachable GlobalPrimes.new
  | reset (gp : GlobalPrimes) : Reachable gp → Reachable gp.reset
  | upto (gp gp' : GlobalPrimes) (max fuel : Nat) :
      Reachable gp → gp.generate_upto max fuel = some gp' → Reachable gp'
  | count (gp gp' : GlobalPrimes) (count fuel : Nat) :
      Reachable gp → gp.generate_count count fuel = some gp' → Reachable gp'

/-- A well-formed wheel cursor: index in `[0, 8)` and base a multiple of 30. -/
def CursorOk (gp : GlobalPrimes) : Prop :=
  gp.wheel_index < 8 ∧ gp.wheel_base % 30 = 0

/-- The cursor state after `k` advances from the seed cursor
`(wheel_base = 0, wheel_index = 1)` (spec section 4.1). -/
def wheelState (k : Nat) : GlobalPrimes :=
  GlobalPrimes.advanceWheel^[k] GlobalPrimes.new

/-- The `k`-th candidate the wheel enumerator produces from the seed
cursor. -/
def wheelStream (k : Nat) : Nat :=
  (wheelState k).curCandidate

/-! ## Helper lemmas: lists -/

lemma prefix_filter {p : Nat → Bool} {l₁ l₂ : List Nat} (h : l₁ <+: l₂) :
    l₁.filter p <+: l₂.filter p := by
  obtain ⟨t, rfl⟩ := h
  exact ⟨t.filter p, (List.filter_append l₁ t).symm⟩

lemma prefix_get? {l₁ l₂ : List Nat} {j : Nat} (h : l₁ <+: l₂) (hj : j < l₁.length) :
    l₂.get? j = l₁.get? j := by
  obtain ⟨t, rfl⟩ := h
  exact List.get?_append hj

lemma le_of_mem_getLast {l : List Nat} {x y : Nat}
    (hp : List.Pairwise (· < ·) l) (hy : l.getLast? = some y) (hx : x ∈ l) : x ≤ y := by
  induction l with
  | nil => cases hx
  | cons a t ih =>
    cases t with
    | nil =>
      simp only [List.getLast?_singleton, Option.some.injEq] at hy
      simp only [List.mem_singleton] at hx
      omega
    | cons b t' =>
      have hy' : (b :: t').getLast? = some y := by
        simpa [List.getLast?_cons_cons] using hy
      have hyt : y ∈ b :: t' := by
        have hne : (b :: t') ≠ [] := by simp
        rw [List.getLast?_eq_getLast _ hne] at hy'
        exact (Option.some.injEq _ _).mp hy' ▸ List.getLast_mem hne
      rcases List.mem_cons.mp hx with rfl | hx'
      · exact le_of_lt ((List.pairwise_cons.mp hp).1 y hyt)
      · exact ih (List.pairwise_cons.mp hp).2 hy' hx'

/-! ## Helper lemmas: numbers coprime to 30 and the wheel residues -/

lemma coprime30_iff {n : Nat} : Nat.Coprime n 30 ↔ n % 30 ∈ WHEEL := by
  have h30 : n % 30 < 30 := Nat.mod_lt n (by norm_num)
  have hrec : Nat.gcd n 30 = Nat.gcd (n % 30) 30 := by
    rw [Nat.gcd_comm, Nat.gcd_rec]
  have hfin : ∀ r, r < 30 → (Nat.gcd r 30 = 1 ↔ r ∈ WHEEL) := by decide
  unfold Nat.Coprime
  rw [hrec]
  exact hfin _ h30

lemma prime_mod30_mem {m : Nat} (hm : m.Prime) (h7 : 7 ≤ m) : m % 30 ∈ WHEEL := by
  refine coprime30_iff.mp ?_
  refine (Nat.Prime.coprime_iff_not_dvd hm).mpr ?_
  intro hdvd
  have hle : m ≤ 30 := Nat.le_of_dvd (by norm_num) hdvd
  have : ∀ m', m' ≤ 30 → Nat.Prime m' → 7 ≤ m' → ¬ m' ∣ 30 := by decide
  exact this m hle hm h7 hdvd

lemma not_prime_of_not_coprime30 {m : Nat} (h7 : 7 ≤ m) (h : ¬ Nat.Coprime m 30) :
    ¬ m.Prime := by
  intro hm
  exact h ((Nat.Prime.coprime_iff_not_dvd hm).mpr (by
    intro hdvd
    have hle : m ≤ 30 := Nat.le_of_dvd (by norm_num) hdvd
    have hall : ∀ m', m' ≤ 30 → Nat.Prime m' → 7 ≤ m' → ¬ m' ∣ 30 := by decide
    exact hall m hle hm h7 hdvd))

/-! ## Wheel-cursor lemmas -/

lemma cursorOk_advance {gp : GlobalPrimes} (h : CursorOk gp) :
    CursorOk gp.advanceWheel := by
  obtain ⟨ps, wi, wb⟩ := gp
  obtain ⟨hwi, hb⟩ := h
  simp only [CursorOk] at *
  interval_cases wi <;> simp [GlobalPrimes.advanceWheel, WHEEL, WHEEL_MODULUS] <;> omega

lemma advanceWheel_primes (gp : GlobalPrimes) : gp.advanceWheel.primes = gp.primes := by
  unfold GlobalPrimes.advanceWheel
  split <;> rfl

lemma curCandidate_mod30 {gp : GlobalPrimes} (h : CursorOk gp) :
    gp.curCandidate % 30 ∈ WHEEL := by
  obtain ⟨ps, wi, wb⟩ := gp
  obtain ⟨hwi, hb⟩ := h
  simp only [CursorOk] at *
  unfold GlobalPrimes.curCandidate
  interval_cases wi <;> simp [WHEEL, List.getD] <;> omega

lemma curCandidate_advance_lt {gp : GlobalPrimes} (h : CursorOk gp) :
    gp.curCandidate < gp.advanceWheel.curCandidate := by
  obtain ⟨ps, wi, wb⟩ := gp
  obtain ⟨hwi, hb⟩ := h
  unfold GlobalPrimes.curCandidate GlobalPrimes.advanceWheel
  interval_cases wi <;> simp [WHEEL, WHEEL_MODULUS, List.getD] <;> omega

lemma curCandidate_advance_min {gp : GlobalPrimes} (h : CursorOk gp)
    {w : Nat} (hw : w % 30 ∈ WHEEL) (hlt : gp.curCandidate < w) :
    gp.advanceWheel.curCandidate ≤ w := by
  obtain ⟨ps, wi, wb⟩ := gp
  obtain ⟨hwi, hb⟩ := h
  have hw' : w % 30 = 1 ∨ w % 30 = 7 ∨ w % 30 = 11 ∨ w % 30 = 13 ∨ w % 30 = 17 ∨
      w % 30 = 19 ∨ w % 30 = 23 ∨ w % 30 = 29 := by
    simpa [WHEEL] using hw
  unfold GlobalPrimes.curCandidate at hlt ⊢
  unfold GlobalPrimes.advanceWheel
  interval_cases wi <;> simp only at hb <;>
    simp [WHEEL, WHEEL_MODULUS, List.getD] at hlt ⊢ <;> omega

/-! ## Lemmas about `primesBelowL` -/

lemma mem_primesBelowL {m n : Nat} : m ∈ primesBelowL n ↔ m.Prime ∧ m < n := by
  simp [primesBelowL, List.mem_filter, List.mem_range, and_comm]

lemma pairwise_primesBelowL (n : Nat) : List.Pairwise (· < ·) (primesBelowL n) :=
  (List.pairwise_lt_range n).sublist (List.filter_sublist _)

lemma primesBelowL_succ (n : Nat) :
    primesBelowL (n + 1) = primesBelowL n ++ (if n.Prime then [n] else []) := by
  unfold primesBelowL
  rw [List.range_succ, List.filter_append]
  congr 1
  by_cases h : n.Prime <;> simp [h]

lemma primesBelowL_mono {m n : Nat} (h : m ≤ n) : primesBelowL m <+: primesBelowL n := by
  have h1 : List.take m (List.range n) = List.range m := by
    rw [List.take_range, Nat.min_eq_left h]
  exact prefix_filter (h1 ▸ List.take_prefix m (List.range n))

lemma primesBelowL_stable {a b : Nat} (hab : a ≤ b)
    (h : ∀ m, a ≤ m → m < b → ¬ m.Prime) : primesBelowL b = primesBelowL a := by
  induction b, hab using Nat.le_induction with
  | base => rfl
  | succ b hb ih =>
    rw [primesBelowL_succ]
    have hnb : ¬ b.Prime := h b hb (by omega)
    simp only [hnb, if_false, List.append_nil]
    exact ih (fun m hm1 hm2 => h m hm1 (by omega))

lemma primesBelowL_seven : primesBelowL 7 = [2, 3, 5] := by decide

lemma two_mem_primesBelowL {n : Nat} (h : 7 ≤ n) : 2 ∈ primesBelowL n :=
  mem_primesBelowL.mpr ⟨Nat.prime_two, by omega⟩

lemma five_mem_primesBelowL {n : Nat} (h : 7 ≤ n) : 5 ∈ primesBelowL n :=
  mem_primesBelowL.mpr ⟨by norm_num, by omega⟩

lemma primesBelowL_ne_nil {n : Nat} (h : 7 ≤ n) : primesBelowL n ≠ [] := by
  intro hnil
  have := two_mem_primesBelowL h
  rw [hnil] at this
  cases this

lemma getLast?_primesBelowL {n : Nat} (h : 7 ≤ n) :
    ∃ y, (primesBelowL n).getLast? = some y ∧ y.Prime ∧ y < n ∧ 5 ≤ y ∧
      ∀ x ∈ primesBelowL n, x ≤ y := by
  have hne := primesBelowL_ne_nil h
  have hlast : (primesBelowL n).getLast? = some ((primesBelowL n).getLast hne) :=
    List.getLast?_eq_getLast _ hne
  have hmem : (primesBelowL n).getLast hne ∈ primesBelowL n := List.getLast_mem hne
  refine ⟨(primesBelowL n).getLast hne, hlast, (mem_primesBelowL.mp hmem).1,
    (mem_primesBelowL.mp hmem).2, ?_, ?_⟩
  · exact le_of_mem_getLast (pairwise_primesBelowL n) hlast (five_mem_primesBelowL h)
  · intro x hx
    exact le_of_mem_getLast (pairwise_primesBelowL n) hlast hx

lemma all_ndvd_iff_prime {c : Nat} (h2 : 2 ≤ c) :
    ((primesBelowL c).all (fun p => c % p != 0) = true) ↔ c.Prime := by
  rw [List.all_eq_true]
  constructor
  · intro hall
    by_contra hnp
    have hne1 : c ≠ 1 := by omega
    have hpf : c.minFac.Prime := Nat.minFac_prime hne1
    have hdvd : c.minFac ∣ c := Nat.minFac_dvd c
    have hlt : c.minFac < c := by
      rcases Nat.lt_or_ge c.minFac c with h3 | h3
      · exact h3
      · exact absurd (Nat.prime_def_minFac.mpr
          ⟨h2, le_antisymm (Nat.minFac_le (by omega)) h3⟩) hnp
    have := hall _ (mem_primesBelowL.mpr ⟨hpf, hlt⟩)
    simp only [bne_iff_ne, ne_eq] at this
    exact this (Nat.dvd_iff_mod_eq_zero.mp hdvd)
  · intro hc p hp
    obtain ⟨hpp, hplt⟩ := mem_primesBelowL.mp hp
    simp only [bne_iff_ne, ne_eq]
    intro hmod
    rcases Nat.Prime.eq_one_or_self_of_dvd hc p (Nat.dvd_iff_mod_eq_zero.mpr hmod) with h1 | h1
    · exact absurd h1 hpp.ne_one
    · omega

/-! ## Cache-invariant step lemmas -/

lemma cacheInv_cursorOk {gp : GlobalPrimes} (h : CacheInv gp) : CursorOk gp :=
  ⟨h.wi_lt, h.base_mod⟩

lemma no_prime_between {gp : GlobalPrimes} (hco : CursorOk gp) (h7 : 7 ≤ gp.curCandidate) :
    ∀ m, gp.curCandidate < m → m < gp.advanceWheel.curCandidate → ¬ m.Prime := by
  intro m h1 h2 hm
  have hmem : m % 30 ∈ WHEEL := prime_mod30_mem hm (by omega)
  have := curCandidate_advance_min hco hmem h1
  omega

lemma pass_check_iff {gp : GlobalPrimes} (h : CacheInv gp) :
    (gp.advanceWheel.primes.all (fun prime => gp.curCandidate % prime != 0) = true) ↔
      gp.curCandidate.Prime := by
  rw [advanceWheel_primes, h.primes_eq]
  exact all_ndvd_iff_prime (by have := h.seven_le; omega)

lemma cacheInv_step_prime {gp : GlobalPrimes} (h : CacheInv gp)
    (hp : gp.curCandidate.Prime) :
    CacheInv { gp.advanceWheel with primes := gp.advanceWheel.primes ++ [gp.curCandidate] } := by
  have hco := cacheInv_cursorOk h
  have hco' := cursorOk_advance hco
  have hlt := curCandidate_advance_lt hco
  have hcur : GlobalPrimes.curCandidate
      { gp.advanceWheel with primes := gp.advanceWheel.primes ++ [gp.curCandidate] } =
      gp.advanceWheel.curCandidate := rfl
  refine ⟨hco'.1, hco'.2, ?_, ?_⟩
  · rw [hcur]
    have := h.seven_le
    omega
  · rw [hcur]
    show gp.advanceWheel.primes ++ [gp.curCandidate] = primesBelowL gp.advanceWheel.curCandidate
    rw [advanceWheel_primes, h.primes_eq]
    have hstable : primesBelowL gp.advanceWheel.curCandidate =
        primesBelowL (gp.curCandidate + 1) := by
      refine primesBelowL_stable (by omega) ?_
      intro m hm1 hm2
      exact no_prime_between hco h.seven_le m (by omega) hm2
    rw [hstable, primesBelowL_succ, if_pos hp]

lemma cacheInv_step_not_prime {gp : GlobalPrimes} (h : CacheInv gp)
    (hp : ¬ gp.curCandidate.Prime) : CacheInv gp.advanceWheel := by
  have hco := cacheInv_cursorOk h
  have hco' := cursorOk_advance hco
  have hlt := curCandidate_advance_lt hco
  refine ⟨hco'.1, hco'.2, by have := h.seven_le; omega, ?_⟩
  rw [advanceWheel_primes, h.primes_eq]
  have hstable : primesBelowL gp.advanceWheel.curCandidate =
      primesBelowL (gp.curCandidate + 1) := by
    refine primesBelowL_stable (by omega) ?_
    intro m hm1 hm2
    exact no_prime_between hco h.seven_le m (by omega) hm2
  rw [hstable, primesBelowL_succ, if_neg hp, List.append_nil]

lemma cacheInv_new : CacheInv GlobalPrimes.new := by
  refine ⟨by decide, by decide, by decide, by decide⟩

lemma cacheInv_reset (gp : GlobalPrimes) : CacheInv gp.reset := cacheInv_new

lemma cacheInv_pairwise {gp : GlobalPrimes} (h : CacheInv gp) :
    List.Pairwise (· < ·) gp.primes := by
  rw [h.primes_eq]
  exact pairwise_primesBelowL _

lemma cacheInv_has_seed {gp : GlobalPrimes} (h : CacheInv gp) :
    [2, 3, 5] <+: gp.primes := by
  rw [h.primes_eq, ← primesBelowL_seven]
  exact primesBelowL_mono h.seven_le

lemma cacheInv_last {gp : GlobalPrimes} (h : CacheInv gp) :
    ∃ y, gp.primes.getLast? = some y ∧ y.Prime ∧ y < gp.curCandidate ∧ 5 ≤ y ∧
      ∀ x ∈ gp.primes, x ≤ y := by
  rw [h.primes_eq]
  exact getLast?_primesBelowL h.seven_le

lemma cacheInv_mem {gp : GlobalPrimes} (h : CacheInv gp) {x : Nat} (hx : x ∈ gp.primes) :
    x.Prime ∧ x < gp.curCandidate := by
  rw [h.primes_eq] at hx
  exact mem_primesBelowL.mp hx

lemma cacheInv_length {gp : GlobalPrimes} (h : CacheInv gp) :
    gp.primes.length = primeCount gp.curCandidate := by
  rw [h.primes_eq]
  rfl

/-! ## `generate_upto` loop lemmas -/

lemma generateUptoLoop_succ (max fuel : Nat) (gp : GlobalPrimes) :
    generateUptoLoop max gp (fuel + 1) =
      if gp.advanceWheel.primes.all (fun prime => gp.curCandidate % prime != 0) then
        (if gp.curCandidate ≥ max then
          some { gp.advanceWheel with
                  primes := gp.advanceWheel.primes ++ [gp.curCandidate] }
        else generateUptoLoop max
          { gp.advanceWheel with
              primes := gp.advanceWheel.primes ++ [gp.curCandidate] } fuel)
      else generateUptoLoop max gp.advanceWheel fuel := rfl

lemma generateUptoLoop_mono {max : Nat} {fuel : Nat} {gp gp' : GlobalPrimes}
    (h : generateUptoLoop max gp fuel = some gp') :
    generateUptoLoop max gp (fuel + 1) = some gp' := by
  induction fuel generalizing gp with
  | zero =>
    rw [show generateUptoLoop max gp 0 = none from rfl] at h
    cases h
  | succ fuel ih =>
    rw [generateUptoLoop_succ] at h
    rw [generateUptoLoop_succ]
    by_cases hpass :
        (gp.advanceWheel.primes.all (fun prime => gp.curCandidate % prime != 0)) = true
    · rw [if_pos hpass] at h
      rw [if_pos hpass]
      by_cases hge : gp.curCandidate ≥ max
      · rw [if_pos hge] at h; rw [if_pos hge]; exact h
      · rw [if_neg hge] at h; rw [if_neg hge]; exact ih h
    · rw [if_neg hpass] at h; rw [if_neg hpass]; exact ih h

lemma generateUptoLoop_mono_le {max fuel fuel' : Nat} {gp gp' : GlobalPrimes}
    (hle : fuel ≤ fuel') (h : generateUptoLoop max gp fuel = some gp') :
    generateUptoLoop max gp fuel' = some gp' := by
  induction fuel', hle using Nat.le_induction with
  | base => exact h
  | succ n hn ih => exact generateUptoLoop_mono ih

lemma generateUptoLoop_some {max : Nat} :
    ∀ {fuel : Nat} {gp gp' : GlobalPrimes}, CacheInv gp → (∀ x ∈ gp.primes, x < max) →
      generateUptoLoop max gp fuel = some gp' →
      CacheInv gp' ∧ gp.primes <+: gp'.primes ∧
      ∃ y, gp'.primes.getLast? = some y ∧ max ≤ y ∧ y.Prime ∧
        ∀ q, q.Prime → max ≤ q → y ≤ q := by
  intro fuel
  induction fuel with
  | zero =>
    intro gp gp' _ _ h
    rw [show generateUptoLoop max gp 0 = none from rfl] at h
    cases h
  | succ fuel ih =>
    intro gp gp' hinv hbelow h
    rw [generateUptoLoop_succ] at h
    by_cases hpass :
        (gp.advanceWheel.primes.all (fun prime => gp.curCandidate % prime != 0)) = true
    · have hprime : gp.curCandidate.Prime := (pass_check_iff hinv).mp hpass
      rw [if_pos hpass] at h
      by_cases hge : gp.curCandidate ≥ max
      · rw [if_pos hge] at h
        obtain rfl :
            { gp.advanceWheel with
                primes := gp.advanceWheel.primes ++ [gp.curCandidate] } = gp' :=
          Option.some.inj h
        refine ⟨cacheInv_step_prime hinv hprime, ?_, gp.curCandidate, ?_, hge, hprime, ?_⟩
        · show gp.primes <+: gp.advanceWheel.primes ++ [gp.curCandidate]
          rw [advanceWheel_primes]
          exact List.prefix_append _ _
        · exact List.getLast?_concat _
        · intro q hq hmq
          by_contra hqlt
          have hqmem : q ∈ gp.primes := by
            rw [hinv.primes_eq]
            exact mem_primesBelowL.mpr ⟨hq, by omega⟩
          have := hbelow q hqmem
          omega
      · rw [if_neg hge] at h
        have hinv2 := cacheInv_step_prime hinv hprime
        have hbelow2 : ∀ x ∈
            ({ gp.advanceWheel with
                primes := gp.advanceWheel.primes ++ [gp.curCandidate] } :
              GlobalPrimes).primes, x < max := by
          intro x hx
          simp only [advanceWheel_primes, List.mem_append, List.mem_singleton] at hx
          rcases hx with hx | rfl
          · exact hbelow x hx
          · omega
        obtain ⟨h1, h2, hy⟩ := ih hinv2 hbelow2 h
        refine ⟨h1, ?_, hy⟩
        refine List.IsPrefix.trans ?_ h2
        show gp.primes <+: gp.advanceWheel.primes ++ [gp.curCandidate]
        rw [advanceWheel_primes]
        exact List.prefix_append _ _
    · rw [if_neg hpass] at h
      have hnp : ¬ gp.curCandidate.Prime := fun hp => hpass ((pass_check_iff hinv).mpr hp)
      have hinv1 := cacheInv_step_not_prime hinv hnp
      have hbelow1 : ∀ x ∈ gp.advanceWheel.primes, x < max := by
        rw [advanceWheel_primes]; exact hbelow
      obtain ⟨h1, h2, hy⟩ := ih hinv1 hbelow1 h
      rw [advanceWheel_primes] at h2
      exact ⟨h1, h2, hy⟩

lemma generateUptoLoop_exists (max : Nat) {gp : GlobalPrimes} (h : CacheInv gp) :
    ∃ fuel gp', generateUptoLoop max gp fuel = some gp' := by
  obtain ⟨Q, hQge, hQprime⟩ := Nat.exists_infinite_primes (max + gp.curCandidate)
  have hQ7 : 7 ≤ Q := le_trans h.seven_le (by omega)
  have hQmem : Q % 30 ∈ WHEEL := prime_mod30_mem hQprime hQ7
  have hmaxQ : max ≤ Q := by omega
  have hstart : gp.curCandidate ≤ Q := by omega
  clear hQge
  suffices H : ∀ d gp, CacheInv gp → gp.curCandidate ≤ Q → Q - gp.curCandidate = d →
      ∃ fuel gp', generateUptoLoop max gp fuel = some gp' from H _ gp h hstart rfl
  intro d
  induction d using Nat.strong_induction_on with
  | _ d ihd =>
    intro gp hinv hle hd
    by_cases hprime : gp.curCandidate.Prime
    · by_cases hge : gp.curCandidate ≥ max
      · refine ⟨1, { gp.advanceWheel with
            primes := gp.advanceWheel.primes ++ [gp.curCandidate] }, ?_⟩
        rw [generateUptoLoop_succ, if_pos ((pass_check_iff hinv).mpr hprime), if_pos hge]
      · have hltmax : gp.curCandidate < max := by omega
        have hltQ : gp.curCandidate < Q := by omega
        have hinv2 := cacheInv_step_prime hinv hprime
        have hnext : gp.advanceWheel.curCandidate ≤ Q :=
          curCandidate_advance_min (cacheInv_cursorOk hinv) hQmem hltQ
        have hadv := curCandidate_advance_lt (cacheInv_cursorOk hinv)
        have hcur : GlobalPrimes.curCandidate
            { gp.advanceWheel with
                primes := gp.advanceWheel.primes ++ [gp.curCandidate] } =
            gp.advanceWheel.curCandidate := rfl
        obtain ⟨fuel, gp', hrun⟩ :=
          ihd (Q - gp.advanceWheel.curCandidate) (by omega) _ hinv2
            (by rw [hcur]; exact hnext) (by rw [hcur])
        refine ⟨fuel + 1, gp', ?_⟩
        rw [generateUptoLoop_succ, if_pos ((pass_check_iff hinv).mpr hprime), if_neg hge]
        exact hrun
    · have hneQ : gp.curCandidate ≠ Q := fun he => hprime (he ▸ hQprime)
      have hltQ : gp.curCandidate < Q := by omega
      have hinv1 := cacheInv_step_not_prime hinv hprime
      have hnext : gp.advanceWheel.curCandidate ≤ Q :=
        curCandidate_advance_min (cacheInv_cursorOk hinv) hQmem hltQ
      have hadv := curCandidate_advance_lt (cacheInv_cursorOk hinv)
      obtain ⟨fuel, gp', hrun⟩ :=
        ihd (Q - gp.advanceWheel.curCandidate) (by omega) _ hinv1 hnext rfl
      refine ⟨fuel + 1, gp', ?_⟩
      have hpass : ¬ ((gp.advanceWheel.primes.all
          (fun prime => gp.curCandidate % prime != 0)) = true) :=
        fun hp => hprime ((pass_check_iff hinv).mp hp)
      rw [generateUptoLoop_succ, if_neg hpass]
      exact hrun

/-! ## `generate_upto` wrapper lemmas -/

lemma generate_upto_some {gp gp' : GlobalPrimes} {max fuel : Nat} (h : CacheInv gp)
    (hr : gp.generate_upto max fuel = some gp') :
    CacheInv gp' ∧ gp.primes <+: gp'.primes ∧
      ∃ y, gp'.primes.getLast? = some y ∧ max ≤ y := by
  obtain ⟨z, hz, hzp, hzlt, hz5, hzmax⟩ := cacheInv_last h
  unfold GlobalPrimes.generate_upto at hr
  split at hr
  · cases hr
  · rename_i last hlast
    rw [GlobalPrimes.last_prime, hz] at hlast
    obtain rfl : z = last := Option.some.inj hlast
    by_cases hfast : max ≤ z
    · rw [if_pos hfast] at hr
      obtain rfl : gp = gp' := Option.some.inj hr
      exact ⟨h, List.prefix_rfl, z, hz, hfast⟩
    · rw [if_neg hfast] at hr
      have hbelow : ∀ x ∈ gp.primes, x < max := fun x hx => by
        have := hzmax x hx; omega
      obtain ⟨h1, h2, y, hy1, hy2, _, _⟩ := generateUptoLoop_some h hbelow hr
      exact ⟨h1, h2, y, hy1, hy2⟩

lemma generate_upto_exists (max : Nat) {gp : GlobalPrimes} (h : CacheInv gp) :
    ∃ fuel gp', ∀ fuel', fuel ≤ fuel' → gp.generate_upto max fuel' = some gp' := by
  obtain ⟨z, hz, hzp, hzlt, hz5, hzmax⟩ := cacheInv_last h
  by_cases hfast : max ≤ z
  · refine ⟨0, gp, fun fuel' _ => ?_⟩
    unfold GlobalPrimes.generate_upto
    split
    · rename_i hnone
      rw [GlobalPrimes.last_prime, hz] at hnone
      cases hnone
    · rename_i last hlast
      rw [GlobalPrimes.last_prime, hz] at hlast
      obtain rfl : z = last := Option.some.inj hlast
      rw [if_pos hfast]
  · obtain ⟨fuel, gp', hrun⟩ := generateUptoLoop_exists max h
    refine ⟨fuel, gp', fun fuel' hle => ?_⟩
    unfold GlobalPrimes.generate_upto
    split
    · rename_i hnone
      rw [GlobalPrimes.last_prime, hz] at hnone
      cases hnone
    · rename_i last hlast
      rw [GlobalPrimes.last_prime, hz] at hlast
      obtain rfl : z = last := Option.some.inj hlast
      rw [if_neg hfast]
      exact generateUptoLoop_mono_le hle hrun

/-! ## `generate_count` loop lemmas -/

lemma generateCountLoop_zero (count : Nat) (gp : GlobalPrimes) :
    generateCountLoop count gp 0 =
      if gp.primes.length < count then none else some gp := rfl

lemma generateCountLoop_succ (count : Nat) (gp : GlobalPrimes) (fuel : Nat) :
    generateCountLoop count gp (fuel + 1) =
      if gp.primes.length < count then
        (if gp.advanceWheel.primes.all (fun prime => gp.curCandidate % prime != 0) then
          generateCountLoop count
            { gp.advanceWheel with
                primes := gp.advanceWheel.primes ++ [gp.curCandidate] } fuel
        else generateCountLoop count gp.advanceWheel fuel)
      else some gp := rfl

lemma generateCountLoop_mono {count fuel : Nat} {gp gp' : GlobalPrimes}
    (h : generateCountLoop count gp fuel = some gp') :
    generateCountLoop count gp (fuel + 1) = some gp' := by
  induction fuel generalizing gp with
  | zero =>
    rw [generateCountLoop_zero] at h
    rw [generateCountLoop_succ]
    by_cases hlen : gp.primes.length < count
    · rw [if_pos hlen] at h; cases h
    · rw [if_neg hlen] at h; rw [if_neg hlen]; exact h
  | succ fuel ih =>
    rw [generateCountLoop_succ] at h
    rw [generateCountLoop_succ]
    by_cases hlen : gp.primes.length < count
    · rw [if_pos hlen] at h; rw [if_pos hlen]
      by_cases hpass :
          (gp.advanceWheel.primes.all (fun prime => gp.curCandidate % prime != 0)) = true
      · rw [if_pos hpass] at h; rw [if_pos hpass]; exact ih h
      · rw [if_neg hpass] at h; rw [if_neg hpass]; exact ih h
    · rw [if_neg hlen] at h; rw [if_neg hlen]; exact h

lemma generateCountLoop_mono_le {count fuel fuel' : Nat} {gp gp' : GlobalPrimes}
    (hle : fuel ≤ fuel') (h : generateCountLoop count gp fuel = some gp') :
    generateCountLoop count gp fuel' = some gp' := by
  induction fuel', hle using Nat.le_induction with
  | base => exact h
  | succ n hn ih => exact generateCountLoop_mono ih

lemma generateCountLoop_some {count : Nat} :
    ∀ {fuel : Nat} {gp gp' : GlobalPrimes}, CacheInv gp →
      generateCountLoop count gp fuel = some gp' →
      CacheInv gp' ∧ gp.primes <+: gp'.primes ∧ count ≤ gp'.primes.length := by
  intro fuel
  induction fuel with
  | zero =>
    intro gp gp' hinv h
    rw [generateCountLoop_zero] at h
    by_cases hlen : gp.primes.length < count
    · rw [if_pos hlen] at h; cases h
    · rw [if_neg hlen] at h
      obtain rfl : gp = gp' := Option.some.inj h
      exact ⟨hinv, List.prefix_rfl, by omega⟩
  | succ fuel ih =>
    intro gp gp' hinv h
    rw [generateCountLoop_succ] at h
    by_cases hlen : gp.primes.length < count
    · rw [if_pos hlen] at h
      by_cases hpass :
          (gp.advanceWheel.primes.all (fun prime => gp.curCandidate % prime != 0)) = true
      · rw [if_pos hpass] at h
        have hprime : gp.curCandidate.Prime := (pass_check_iff hinv).mp hpass
        obtain ⟨h1, h2, h3⟩ := ih (cacheInv_step_prime hinv hprime) h
        refine ⟨h1, ?_, h3⟩
        refine List.IsPrefix.trans ?_ h2
        show gp.primes <+: gp.advanceWheel.primes ++ [gp.curCandidate]
        rw [advanceWheel_primes]
        exact List.prefix_append _ _
      · rw [if_neg hpass] at h
        have hnp : ¬ gp.curCandidate.Prime := fun hp => hpass ((pass_check_iff hinv).mpr hp)
        obtain ⟨h1, h2, h3⟩ := ih (cacheInv_step_not_prime hinv hnp) h
        rw [advanceWheel_primes] at h2
        exact ⟨h1, h2, h3⟩
    · rw [if_neg hlen] at h
      obtain rfl : gp = gp' := Option.some.inj h
      exact ⟨hinv, List.prefix_rfl, by omega⟩

lemma generateCountLoop_exists (count : Nat) {gp : GlobalPrimes} (h : CacheInv gp) :
    ∃ fuel gp', generateCountLoop count gp fuel = some gp' := by
  suffices H : ∀ n gp, CacheInv gp → count - gp.primes.length = n →
      ∃ fuel gp', generateCountLoop count gp fuel = some gp' from H _ gp h rfl
  intro n
  induction n using Nat.strong_induction_on with
  | _ n ihn =>
    intro gp hinv hn
    by_cases hlen : gp.primes.length < count
    · obtain ⟨Q, hQge, hQprime⟩ := Nat.exists_infinite_primes gp.curCandidate
      have hQ7 : 7 ≤ Q := le_trans hinv.seven_le hQge
      have hQmem : Q % 30 ∈ WHEEL := prime_mod30_mem hQprime hQ7
      suffices Hin : ∀ d gp₂, CacheInv gp₂ → gp₂.curCandidate ≤ Q →
          gp.primes.length ≤ gp₂.primes.length → Q - gp₂.curCandidate = d →
          ∃ fuel gp', generateCountLoop count gp₂ fuel = some gp' from
        Hin _ gp hinv hQge le_rfl rfl
      intro d
      induction d using Nat.strong_induction_on with
      | _ d ihd =>
        intro gp₂ hinv₂ hle₂ hlen₂ hd
        by_cases hstop : gp₂.primes.length < count
        · by_cases hprime : gp₂.curCandidate.Prime
          · have hinv₃ := cacheInv_step_prime hinv₂ hprime
            have hlen₃ : ({ gp₂.advanceWheel with
                primes := gp₂.advanceWheel.primes ++ [gp₂.curCandidate] } :
                  GlobalPrimes).primes.length = gp₂.primes.length + 1 := by
              show (gp₂.advanceWheel.primes ++ [gp₂.curCandidate]).length = _
              rw [advanceWheel_primes]
              simp
            obtain ⟨fuel, gp', hrun⟩ :=
              ihn (count - (gp₂.primes.length + 1)) (by omega) _ hinv₃ (by rw [hlen₃])
            refine ⟨fuel + 1, gp', ?_⟩
            rw [generateCountLoop_succ, if_pos hstop,
              if_pos ((pass_check_iff hinv₂).mpr hprime)]
            exact hrun
          · have hneQ : gp₂.curCandidate ≠ Q := fun he => hprime (he ▸ hQprime)
            have hinv₃ := cacheInv_step_not_prime hinv₂ hprime
            have hnext : gp₂.advanceWheel.curCandidate ≤ Q :=
              curCandidate_advance_min (cacheInv_cursorOk hinv₂) hQmem (by omega)
            have hadv := curCandidate_advance_lt (cacheInv_cursorOk hinv₂)
            obtain ⟨fuel, gp', hrun⟩ :=
              ihd (Q - gp₂.advanceWheel.curCandidate) (by omega) _ hinv₃ hnext
                (by rw [advanceWheel_primes]; exact hlen₂) rfl
            refine ⟨fuel + 1, gp', ?_⟩
            rw [generateCountLoop_succ, if_pos hstop,
              if_neg (fun hp => hprime ((pass_check_iff hinv₂).mp hp))]
            exact hrun
        · exact ⟨0, gp₂, by rw [generateCountLoop_zero, if_neg hstop]⟩
    · exact ⟨0, gp, by rw [generateCountLoop_zero, if_neg hlen]⟩

lemma generate_count_some {gp gp' : GlobalPrimes} {count fuel : Nat} (h : CacheInv gp)
    (hr : gp.generate_count count fuel = some gp') :
    CacheInv gp' ∧ gp.primes <+: gp'.primes ∧ count ≤ gp'.primes.length :=
  generateCountLoop_some h hr

lemma generate_count_exists (count : Nat) {gp : GlobalPrimes} (h : CacheInv gp) :
    ∃ fuel gp', ∀ fuel', fuel ≤ fuel' → gp.generate_count count fuel' = some gp' := by
  obtain ⟨fuel, gp', hrun⟩ := generateCountLoop_exists count h
  exact ⟨fuel, gp', fun fuel' hle => generateCountLoop_mono_le hle hrun⟩

/-! ## Positional characterization of `primesBelowL` -/

lemma primesBelowL_get? {n i p : Nat} (h : (primesBelowL n).get? i = some p) :
    p.Prime ∧ primeCount p = i := by
  have hmem : p ∈ primesBelowL n := List.get?_mem h
  obtain ⟨hp, hplt⟩ := mem_primesBelowL.mp hmem
  have hsucc : primesBelowL (p + 1) = primesBelowL p ++ [p] := by
    rw [primesBelowL_succ, if_pos hp]
  obtain ⟨t, ht⟩ := primesBelowL_mono (show p + 1 ≤ n by omega)
  have hget2 : (primesBelowL n).get? (primesBelowL p).length = some p := by
    rw [← ht, hsucc, List.append_assoc]
    rw [List.get?_append_right (le_refl _)]
    simp
  have hnodup : (primesBelowL n).Nodup :=
    (pairwise_primesBelowL n).imp (fun hab => Nat.ne_of_lt hab)
  obtain ⟨hilen, -⟩ := List.get?_eq_some.mp h
  have hieq : i = (primesBelowL p).length := by
    refine List.getElem?_inj hilen hnodup ?_
    rw [← List.get?_eq_getElem?, ← List.get?_eq_getElem?, h, hget2]
  exact ⟨hp, hieq.symm⟩

lemma primesBelowL_get?_of {p i n : Nat} (hp : p.Prime) (hc : primeCount p = i)
    (hlt : p < n) : (primesBelowL n).get? i = some p := by
  subst hc
  show (primesBelowL n).get? (primesBelowL p).length = some p
  have hsucc : primesBelowL (p + 1) = primesBelowL p ++ [p] := by
    rw [primesBelowL_succ, if_pos hp]
  obtain ⟨t, ht⟩ := primesBelowL_mono (show p + 1 ≤ n by omega)
  rw [← ht, hsucc, List.append_assoc]
  rw [List.get?_append_right (le_refl _)]
  simp

lemma primeCount_lt_of_lt {p n : Nat} (hp : p.Prime) (hlt : p < n) :
    primeCount p < primeCount n := by
  have h1 := (primesBelowL_mono (show p + 1 ≤ n by omega)).length_le
  rw [primesBelowL_succ, if_pos hp] at h1
  simp only [List.length_append, List.length_cons, List.length_nil] at h1
  unfold primeCount
  omega

lemma primeCount_inj {p q k : Nat} (hp : p.Prime) (hq : q.Prime)
    (hcp : primeCount p = k) (hcq : primeCount q = k) : p = q := by
  by_contra hne
  rcases Nat.lt_or_ge p q with hlt | hge
  · have := primeCount_lt_of_lt hp hlt
    omega
  · have hlt : q < p := by omega
    have := primeCount_lt_of_lt hq hlt
    omega

/-! ## Iterator (`Primes::next`) lemmas -/

lemma primesNext_eq_extend {fuel : Nat} {gp gpx : GlobalPrimes} {i z : Nat}
    (hidx : gp.primes.length ≤ i) (hz : gp.last_prime = some z)
    (hup : gp.generate_upto (z * 3 / 2) fuel = some gpx) :
    primesNext fuel gp ⟨i⟩ =
      (match gpx.primes.get? i with
      | none => none
      | some p => some (p, gpx, ⟨i + 1⟩)) := by
  simp only [primesNext, hz, hup, if_pos hidx]

lemma primesNext_eq_read {fuel : Nat} {gp : GlobalPrimes} {i : Nat}
    (hidx : ¬ gp.primes.length ≤ i) :
    primesNext fuel gp ⟨i⟩ =
      (match gp.primes.get? i with
      | none => none
      | some p => some (p, gp, ⟨i + 1⟩)) := by
  simp only [primesNext, if_neg hidx]

lemma primesNext_eq_none {fuel : Nat} {gp : GlobalPrimes} {i z : Nat}
    (hidx : gp.primes.length ≤ i) (hz : gp.last_prime = some z)
    (hup : gp.generate_upto (z * 3 / 2) fuel = none) :
    primesNext fuel gp ⟨i⟩ = none := by
  simp only [primesNext, hz, hup, if_pos hidx]

lemma primesNext_some {fuel : Nat} {gp : GlobalPrimes} {i p : Nat}
    {gp1 : GlobalPrimes} {it1 : Primes} (h : CacheInv gp)
    (hr : primesNext fuel gp ⟨i⟩ = some (p, gp1, it1)) :
    CacheInv gp1 ∧ gp.primes <+: gp1.primes ∧ gp1.primes.get? i = some p ∧
      it1 = ⟨i + 1⟩ ∧ p.Prime ∧ primeCount p = i := by
  by_cases hidx : gp.primes.length ≤ i
  · obtain ⟨z, hz, hzp, hzlt, hz5, hzmax⟩ := cacheInv_last h
    have hz' : gp.last_prime = some z := hz
    cases hup : gp.generate_upto (z * 3 / 2) fuel with
    | none =>
      rw [primesNext_eq_none hidx hz' hup] at hr
      cases hr
    | some gpx =>
      rw [primesNext_eq_extend hidx hz' hup] at hr
      obtain ⟨hinv1, hpre, y, hy, hymax⟩ := generate_upto_some h hup
      cases hget : gpx.primes.get? i with
      | none => rw [hget] at hr; cases hr
      | some q =>
        rw [hget] at hr
        simp only [Option.some.injEq, Prod.mk.injEq] at hr
        obtain ⟨rfl, rfl, rfl⟩ := hr
        have hchar : q.Prime ∧ primeCount q = i := by
          refine primesBelowL_get? (n := gpx.curCandidate) ?_
          rw [← hinv1.primes_eq]
          exact hget
        exact ⟨hinv1, hpre, hget, rfl, hchar.1, hchar.2⟩
  · rw [primesNext_eq_read hidx] at hr
    cases hget : gp.primes.get? i with
    | none =>
      exfalso
      have := List.get?_eq_none.mp hget
      omega
    | some q =>
      rw [hget] at hr
      simp only [Option.some.injEq, Prod.mk.injEq] at hr
      obtain ⟨rfl, rfl, rfl⟩ := hr
      have hchar : q.Prime ∧ primeCount q = i := by
        refine primesBelowL_get? (n := gp.curCandidate) ?_
        rw [← h.primes_eq]
        exact hget
      exact ⟨h, List.prefix_rfl, hget, rfl, hchar.1, hchar.2⟩

lemma primesNext_exists {gp : GlobalPrimes} {i : Nat} (h : CacheInv gp)
    (hi : i ≤ gp.primes.length) :
    ∃ fuel p gp1, (∀ fuel', fuel ≤ fuel' →
        primesNext fuel' gp ⟨i⟩ = some (p, gp1, ⟨i + 1⟩)) ∧
      CacheInv gp1 ∧ gp.primes <+: gp1.primes ∧ i < gp1.primes.length ∧
      gp1.primes.get? i = some p ∧ p.Prime ∧ primeCount p = i := by
  by_cases hidx : gp.primes.length ≤ i
  · obtain ⟨z, hz, hzp, hzlt, hz5, hzmax⟩ := cacheInv_last h
    have hz' : gp.last_prime = some z := hz
    obtain ⟨fuel, gpx, hup⟩ := generate_upto_exists (z * 3 / 2) h
    obtain ⟨hinv1, hpre, y, hy, hymax⟩ := generate_upto_some h (hup fuel le_rfl)
    have hgrow : z < z * 3 / 2 := by omega
    have hlen : i < gpx.primes.length := by
      rcases Nat.lt_or_ge i gpx.primes.length with h' | h'
      · exact h'
      · exfalso
        have hlenle : gpx.primes.length ≤ gp.primes.length := by omega
        have heq : gp.primes = gpx.primes :=
          List.IsPrefix.eq_of_length hpre (le_antisymm hpre.length_le hlenle)
        rw [← heq, hz] at hy
        obtain rfl : z = y := Option.some.inj hy
        omega
    cases hget : gpx.primes.get? i with
    | none =>
      exfalso
      have := List.get?_eq_none.mp hget
      omega
    | some p =>
      have hchar : p.Prime ∧ primeCount p = i := by
        refine primesBelowL_get? (n := gpx.curCandidate) ?_
        rw [← hinv1.primes_eq]
        exact hget
      refine ⟨fuel, p, gpx, ?_, hinv1, hpre, hlen, hget, hchar.1, hchar.2⟩
      intro fuel' hle
      rw [primesNext_eq_extend hidx hz' (hup fuel' hle), hget]
  · have hlt : i < gp.primes.length := by omega
    cases hget : gp.primes.get? i with
    | none =>
      exfalso
      have := List.get?_eq_none.mp hget
      omega
    | some p =>
      have hchar : p.Prime ∧ primeCount p = i := by
        refine primesBelowL_get? (n := gp.curCandidate) ?_
        rw [← h.primes_eq]
        exact hget
      refine ⟨0, p, gp, ?_, h, List.prefix_rfl, hlt, hget, hchar.1, hchar.2⟩
      intro fuel' _
      rw [primesNext_eq_read hidx, hget]

/-! ## Driving the iterator: `primesTake` and `primesUptoRun` -/

lemma primesTake_exists {k : Nat} :
    ∀ (gp : GlobalPrimes) (i : Nat), CacheInv gp → i ≤ gp.primes.length →
      ∃ fuel l gp2, (∀ fuel', fuel ≤ fuel' →
          primesTake gp ⟨i⟩ fuel' k = some (l, gp2, ⟨i + k⟩)) ∧
        CacheInv gp2 ∧ gp.primes <+: gp2.primes ∧ i + k ≤ gp2.primes.length ∧
        l.length = k ∧ ∀ j, j < k → l.get? j = gp2.primes.get? (i + j) := by
  induction k with
  | zero =>
    intro gp i h hi
    exact ⟨0, [], gp, fun fuel' _ => rfl, h, List.prefix_rfl, by omega, rfl,
      fun j hj => absurd hj (by omega)⟩
  | succ k ih =>
    intro gp i h hi
    obtain ⟨f₁, p, gp1, hnext, hinv1, hpre1, hlen1, hget1, hp, hpc⟩ := primesNext_exists h hi
    obtain ⟨f₂, l, gp2, htake, hinv2, hpre2, hlen2, hlenl, hvals⟩ :=
      ih gp1 (i + 1) hinv1 (by omega)
    have harith : i + 1 + k = i + (k + 1) := by omega
    refine ⟨max f₁ f₂, p :: l, gp2, ?_, hinv2, hpre1.trans hpre2, by omega,
      by simp [hlenl], ?_⟩
    · intro fuel' hle
      have h1 := hnext fuel' (le_trans (le_max_left _ _) hle)
      have h2 := htake fuel' (le_trans (le_max_right _ _) hle)
      rw [harith] at h2
      simp only [primesTake, h1, h2]
    · intro j hj
      cases j with
      | zero =>
        simp only [List.get?, Nat.add_zero]
        rw [prefix_get? hpre2 hlen1]
        exact hget1.symm
      | succ j =>
        simp only [List.get?]
        rw [show i + (j + 1) = (i + 1) + j by omega]
        exact hvals j (by omega)

lemma primesUptoRun_exists {M : Nat} :
    ∀ (d : Nat) (gp : GlobalPrimes) (i : Nat) (acc : List Nat), CacheInv gp →
      i ≤ gp.primes.length → i ≤ primeCount (M + 1) →
      acc = (primesBelowL (M + 1)).take i → primeCount (M + 1) - i = d →
      ∃ fuel gpf itf, ∀ fuel', fuel ≤ fuel' →
        primesUptoRun M gp ⟨i⟩ acc fuel' = some (primesBelowL (M + 1), gpf, itf) := by
  intro d
  induction d using Nat.strong_induction_on with
  | _ d ihd =>
    intro gp i acc hinv hilen hiT hacc hd
    obtain ⟨f₁, p, gp1, hnext, hinv1, hpre1, hlen1, hget1, hp, hpc⟩ :=
      primesNext_exists hinv hilen
    by_cases hiend : i < primeCount (M + 1)
    · have hTi : (primesBelowL (M + 1)).get? i = some p := by
        cases hq : (primesBelowL (M + 1)).get? i with
        | none =>
          exfalso
          have := List.get?_eq_none.mp hq
          unfold primeCount at hiend
          omega
        | some q =>
          obtain ⟨hqp, hqc⟩ := primesBelowL_get? hq
          obtain rfl : q = p := primeCount_inj hqp hp hqc hpc
          rfl
      have hpmem : p ∈ primesBelowL (M + 1) := List.get?_mem hTi
      have hpM : p ≤ M := by
        have := (mem_primesBelowL.mp hpmem).2
        omega
      have htake : acc ++ [p] = (primesBelowL (M + 1)).take (i + 1) := by
        rw [hacc, List.take_succ]
        congr 1
        rw [← List.get?_eq_getElem?, hTi]
        rfl
      obtain ⟨f₂, gpf, itf, hrec⟩ :=
        ihd (primeCount (M + 1) - (i + 1)) (by omega) gp1 (i + 1) (acc ++ [p]) hinv1
          (by omega) (by omega) htake rfl
      refine ⟨max f₁ f₂ + 1, gpf, itf, ?_⟩
      intro fuel' hle
      obtain ⟨f₃, rfl⟩ : ∃ f₃, fuel' = f₃ + 1 := ⟨fuel' - 1, by omega⟩
      have e1 := hnext f₃ (by omega)
      have e2 := hrec f₃ (by omega)
      simp only [primesUptoRun, e1]
      rw [if_pos hpM]
      exact e2
    · have hieq : i = primeCount (M + 1) := by omega
      have hpM : ¬ p ≤ M := by
        intro hle
        have := primeCount_lt_of_lt hp (show p < M + 1 by omega)
        omega
      have hacc' : acc = primesBelowL (M + 1) := by
        rw [hacc, hieq]
        exact List.take_length _
      refine ⟨f₁ + 1, gp1, ⟨i + 1⟩, ?_⟩
      intro fuel' hle
      obtain ⟨f₃, rfl⟩ : ∃ f₃, fuel' = f₃ + 1 := ⟨fuel' - 1, by omega⟩
      have e1 := hnext f₃ (by omega)
      simp only [primesUptoRun, e1]
      rw [if_neg hpM, hacc']

lemma primes_upto_exists {M : Nat} {gp : GlobalPrimes} (h : CacheInv gp) :
    ∃ fuel, ∀ fuel', fuel ≤ fuel' →
      primes_upto gp M fuel' = some (primesBelowL (M + 1)) := by
  obtain ⟨fuel, gpf, itf, hrun⟩ :=
    primesUptoRun_exists (M := M) (primeCount (M + 1)) gp 0 [] h
      (by omega) (by omega) rfl rfl
  refine ⟨fuel, fun fuel' hle => ?_⟩
  show (primesUptoRun M gp ⟨0⟩ [] fuel').map (fun r => r.1) = _
  rw [hrun fuel' hle]
  rfl

/-! ## The naive sieve equals the primes below `max + 1` -/

lemma dumbPrimeGenerator_eq : ∀ max : Nat, dumbPrimeGenerator max = primesBelowL (max + 1)
  | 0 => by decide
  | 1 => by decide
  | max + 2 => by
    have ih := dumbPrimeGenerator_eq (max + 1)
    unfold dumbPrimeGenerator at ih ⊢
    have hrange : List.range' 2 (max + 2 - 1) = List.range' 2 (max + 1 - 1) ++ [max + 2] := by
      have hc := @List.range'_concat 1 2 max
      have h1 : max + 2 - 1 = max + 1 := by omega
      have h2 : max + 1 - 1 = max := by omega
      rw [h1, h2]
      simpa [Nat.add_comm] using hc
    rw [hrange, List.foldl_append, ih]
    show (if (primesBelowL (max + 2)).all (fun prime => (max + 2) % prime != 0) then
        primesBelowL (max + 2) ++ [max + 2] else primesBelowL (max + 2)) =
      primesBelowL (max + 2 + 1)
    rw [primesBelowL_succ (max + 2)]
    by_cases hp : (max + 2).Prime
    · rw [if_pos ((all_ndvd_iff_prime (by omega)).mpr hp), if_pos hp]
    · rw [if_neg (fun hpass => hp ((all_ndvd_iff_prime (by omega)).mp hpass)),
        if_neg hp, List.append_nil]

/-! ## Binary search correctness -/

lemma getD_zero_get? (l : List Nat) (n : Nat) : l.getD n 0 = (l.get? n).getD 0 :=
  List.getD_eq_getD_get? _ _ _

lemma pairwise_get?_lt {xs : List Nat} (hs : List.Pairwise (· < ·) xs) {a b x y : Nat}
    (hab : a < b) (hxa : xs.get? a = some x) (hyb : xs.get? b = some y) : x < y := by
  obtain ⟨ha, hga⟩ := List.get?_eq_some.mp hxa
  obtain ⟨hb, hgb⟩ := List.get?_eq_some.mp hyb
  have := List.pairwise_iff_get.mp hs ⟨a, ha⟩ ⟨b, hb⟩ (Fin.mk_lt_mk.mpr hab)
  rw [hga, hgb] at this
  exact this

lemma binarySearchGo_succ (xs : List Nat) (t lo hi fuel : Nat) :
    binarySearchGo xs t lo hi (fuel + 1) =
      if lo < hi then
        (if xs.getD ((lo + hi) / 2) 0 < t then
          binarySearchGo xs t ((lo + hi) / 2 + 1) hi fuel
        else if t < xs.getD ((lo + hi) / 2) 0 then
          binarySearchGo xs t lo ((lo + hi) / 2) fuel
        else true)
      else false := rfl

lemma binarySearchGo_sound {xs : List Nat} {t : Nat} :
    ∀ {fuel lo hi : Nat}, hi ≤ xs.length →
      binarySearchGo xs t lo hi fuel = true → t ∈ xs := by
  intro fuel
  induction fuel with
  | zero =>
    intro lo hi _ h
    cases h
  | succ fuel ih =>
    intro lo hi hhi h
    rw [binarySearchGo_succ] at h
    by_cases hlh : lo < hi
    · rw [if_pos hlh] at h
      by_cases h1 : xs.getD ((lo + hi) / 2) 0 < t
      · rw [if_pos h1] at h
        exact ih hhi h
      · rw [if_neg h1] at h
        by_cases h2 : t < xs.getD ((lo + hi) / 2) 0
        · rw [if_pos h2] at h
          exact ih (by omega) h
        · have hmlt : (lo + hi) / 2 < xs.length := by omega
          cases hmid : xs.get? ((lo + hi) / 2) with
          | none =>
            exfalso
            have := List.get?_eq_none.mp hmid
            omega
          | some v =>
            have hv : xs.getD ((lo + hi) / 2) 0 = v := by
              rw [getD_zero_get?, hmid]
              rfl
            have : v = t := by omega
            subst this
            exact List.get?_mem hmid
    · rw [if_neg hlh] at h
      cases h

lemma binarySearchGo_complete {xs : List Nat} {t : Nat} (hs : List.Pairwise (· < ·) xs) :
    ∀ (fuel lo hi j : Nat), hi ≤ xs.length → hi - lo ≤ fuel → lo ≤ j → j < hi →
      xs.get? j = some t → binarySearchGo xs t lo hi fuel = true := by
  intro fuel
  induction fuel with
  | zero =>
    intro lo hi j _ hf hj1 hj2 _
    omega
  | succ fuel ih =>
    intro lo hi j hhi hf hj1 hj2 hget
    have hlh : lo < hi := by omega
    rw [binarySearchGo_succ, if_pos hlh]
    have hmlt : (lo + hi) / 2 < xs.length := by omega
    cases hmid : xs.get? ((lo + hi) / 2) with
    | none =>
      exfalso
      have := List.get?_eq_none.mp hmid
      omega
    | some v =>
      have hv : xs.getD ((lo + hi) / 2) 0 = v := by
        rw [getD_zero_get?, hmid]
        rfl
      rw [hv]
      rcases Nat.lt_trichotomy v t with h1 | h1 | h1
      · rw [if_pos h1]
        have hjm : (lo + hi) / 2 < j := by
          by_contra hle
          push_neg at hle
          rcases Nat.lt_or_ge j ((lo + hi) / 2) with hlt | hge
          · have := pairwise_get?_lt hs hlt hget hmid
            omega
          · have : j = (lo + hi) / 2 := by omega
            rw [this, hmid] at hget
            have : v = t := Option.some.inj hget
            omega
        exact ih ((lo + hi) / 2 + 1) hi j hhi (by omega) (by omega) hj2 hget
      · rw [if_neg (by omega), if_neg (by omega)]
      · rw [if_neg (by omega), if_pos h1]
        have hjm : j < (lo + hi) / 2 := by
          by_contra hle
          push_neg at hle
          rcases Nat.lt_or_ge ((lo + hi) / 2) j with hlt | hge
          · have := pairwise_get?_lt hs hlt hmid hget
            omega
          · have : j = (lo + hi) / 2 := by omega
            rw [this, hmid] at hget
            have : v = t := Option.some.inj hget
            omega
        exact ih lo ((lo + hi) / 2) j (by omega) (by omega) hj1 hjm hget

lemma binarySearchContains_iff {xs : List Nat} {t : Nat}
    (hs : List.Pairwise (· < ·) xs) : binarySearchContains xs t = true ↔ t ∈ xs := by
  constructor
  · intro h
    exact binarySearchGo_sound le_rfl h
  · intro hmem
    obtain ⟨n, hn⟩ := List.get?_of_mem hmem
    have hnlt : n < xs.length := (List.get?_eq_some.mp hn).1
    exact binarySearchGo_complete hs (xs.length + 1) 0 xs.length n le_rfl (by omega)
      (by omega) hnlt hn

/-! ## `is_prime` lemmas -/

lemma is_prime_exists {gp : GlobalPrimes} {n : Nat} (h : CacheInv gp) :
    ∃ fuel b gpf, (∀ fuel', fuel ≤ fuel' → is_prime gp n fuel' = some (b, gpf)) ∧
      CacheInv gpf ∧ gp.primes <+: gpf.primes ∧ (b = true ↔ n.Prime) ∧
      ∃ y, gpf.primes.getLast? = some y ∧ n ≤ y := by
  obtain ⟨fuel, gpx, hup⟩ := generate_upto_exists n h
  obtain ⟨hinvx, hprex, y, hy, hyn⟩ := generate_upto_some h (hup fuel le_rfl)
  have hmem_iff : binarySearchContains gpx.primes n = true ↔ n ∈ gpx.primes :=
    binarySearchContains_iff (cacheInv_pairwise hinvx)
  have hn_iff : n ∈ gpx.primes ↔ n.Prime := by
    constructor
    · intro hm
      exact (cacheInv_mem hinvx hm).1
    · intro hp
      obtain ⟨z, hz, hzp, hzlt, hz5, hzmax⟩ := cacheInv_last hinvx
      obtain rfl : y = z := Option.some.inj (hy.symm.trans hz)
      rw [hinvx.primes_eq]
      exact mem_primesBelowL.mpr ⟨hp, by omega⟩
  refine ⟨fuel, binarySearchContains gpx.primes n, gpx, ?_, hinvx, hprex,
    hmem_iff.trans hn_iff, y, hy, hyn⟩
  intro fuel' hle
  simp only [is_prime, hup fuel' hle]

/-! ## `factorize` lemmas -/

lemma divideOut_zero_eq (p k : Nat) (acc : List Nat) :
    divideOut p k acc 0 = if k % p = 0 then none else some (k, acc) := rfl

lemma divideOut_succ (p k : Nat) (acc : List Nat) (fuel : Nat) :
    divideOut p k acc (fuel + 1) =
      if k % p = 0 then divideOut p (k / p) (acc ++ [p]) fuel
      else some (k, acc) := rfl

lemma divideOut_zero_none {p : Nat} (hp : 2 ≤ p) (acc : List Nat) :
    ∀ fuel, divideOut p 0 acc fuel = none := by
  intro fuel
  induction fuel generalizing acc with
  | zero => rw [divideOut_zero_eq, if_pos (Nat.zero_mod p)]
  | succ fuel ih =>
    rw [divideOut_succ, if_pos (Nat.zero_mod p)]
    rw [Nat.zero_div]
    exact ih _

lemma divideOut_exists {p : Nat} (hp : 2 ≤ p) :
    ∀ (k : Nat), 1 ≤ k → ∀ (acc : List Nat),
      ∃ fuel k1 m, (∀ fuel', fuel ≤ fuel' →
          divideOut p k acc fuel' = some (k1, acc ++ List.replicate m p)) ∧
        k = p ^ m * k1 ∧ ¬ p ∣ k1 ∧ 1 ≤ k1 := by
  intro k
  induction k using Nat.strong_induction_on with
  | _ k ih =>
    intro hk acc
    by_cases hdvd : k % p = 0
    · have hpd : p ∣ k := Nat.dvd_of_mod_eq_zero hdvd
      have hkp1 : 1 ≤ k / p := Nat.div_pos (Nat.le_of_dvd (by omega) hpd) (by omega)
      have hlt : k / p < k := Nat.div_lt_self (by omega) (by omega)
      obtain ⟨fuel, k1, m, hrun, heq, hnd, hk1⟩ := ih (k / p) hlt hkp1 (acc ++ [p])
      refine ⟨fuel + 1, k1, m + 1, ?_, ?_, hnd, hk1⟩
      · intro fuel' hle
        obtain ⟨f₃, rfl⟩ : ∃ f₃, fuel' = f₃ + 1 := ⟨fuel' - 1, by omega⟩
        rw [divideOut_succ, if_pos hdvd, hrun f₃ (by omega)]
        rw [List.append_assoc]
        rfl
      · calc k = k / p * p := (Nat.div_mul_cancel hpd).symm
        _ = p ^ m * k1 * p := by rw [← heq]
        _ = p ^ (m + 1) * k1 := by ring
    · refine ⟨0, k, 0, ?_, by simp, fun hd => hdvd (Nat.dvd_iff_mod_eq_zero.mp hd), hk⟩
      intro fuel' _
      cases fuel' with
      | zero => rw [divideOut_zero_eq, if_neg hdvd]; simp
      | succ f => rw [divideOut_succ, if_neg hdvd]; simp

lemma factorizeLoop_succ (gp : GlobalPrimes) (it : Primes) (k : Nat) (acc : List Nat)
    (fuel : Nat) :
    factorizeLoop gp it k acc (fuel + 1) =
      (match primesNext fuel gp it with
      | none => none
      | some (p, gp1, it1) =>
        match divideOut p k acc fuel with
        | none => none
        | some (k1, acc1) =>
          if k1 = 1 then some (k1, acc1, gp1)
          else factorizeLoop gp1 it1 k1 acc1 fuel) := rfl

lemma factorizeLoop_some :
    ∀ {fuel : Nat} {gp : GlobalPrimes} {it : Primes} {k : Nat} {acc : List Nat}
      {r : Nat × List Nat × GlobalPrimes}, CacheInv gp →
      factorizeLoop gp it k acc fuel = some r →
      CacheInv r.2.2 ∧ gp.primes <+: r.2.2.primes := by
  intro fuel
  induction fuel with
  | zero =>
    intro gp it k acc r _ h
    cases h
  | succ fuel ih =>
    intro gp it k acc r hinv h
    obtain ⟨i⟩ := it
    rw [factorizeLoop_succ] at h
    cases hnext : primesNext fuel gp ⟨i⟩ with
    | none =>
      simp only [hnext] at h
      cases h
    | some trip =>
      obtain ⟨p, gp1, it1⟩ := trip
      obtain ⟨hinv1, hpre1, _, rfl, _, _⟩ := primesNext_some hinv hnext
      simp only [hnext] at h
      cases hdiv : divideOut p k acc fuel with
      | none =>
        simp only [hdiv] at h
        cases h
      | some pr =>
        obtain ⟨k1, acc1⟩ := pr
        simp only [hdiv] at h
        by_cases hk1 : k1 = 1
        · rw [if_pos hk1] at h
          obtain rfl := Option.some.inj h
          exact ⟨hinv1, hpre1⟩
        · rw [if_neg hk1] at h
          obtain ⟨h1, h2⟩ := ih hinv1 h
          exact ⟨h1, hpre1.trans h2⟩

lemma factorizeLoop_exists :
    ∀ (k : Nat), 2 ≤ k → ∀ (d : Nat) (gp : GlobalPrimes) (i : Nat) (acc : List Nat),
      CacheInv gp → i ≤ gp.primes.length →
      (∀ q, q.Prime → q ∣ k → i ≤ primeCount q) →
      primeCount (k + 1) - i = d →
      ∃ fuel l gpf, (∀ fuel', fuel ≤ fuel' →
          factorizeLoop gp ⟨i⟩ k acc fuel' = some (1, acc ++ l, gpf)) ∧
        l.prod = k ∧ (∀ q ∈ l, q.Prime) ∧ List.Pairwise (· ≤ ·) l ∧ l ≠ [] ∧
        CacheInv gpf ∧ (∀ q ∈ l, i ≤ primeCount q) := by
  intro k
  induction k using Nat.strong_induction_on with
  | _ k ihk =>
    intro hk2 d
    induction d using Nat.strong_induction_on with
    | _ d ihd =>
      intro gp i acc hinv hilen hfac hd
      obtain ⟨f₁, p, gp1, hnext, hinv1, hpre1, hlen1, hget1, hp, hpc⟩ :=
        primesNext_exists hinv hilen
      obtain ⟨f₂, k1, m, hdiv, heqk, hndvd, hk1pos⟩ :=
        divideOut_exists hp.two_le k (by omega) acc
      have hilt : i < primeCount (k + 1) := by
        have hqf : k.minFac.Prime := Nat.minFac_prime (by omega)
        have h1 := hfac _ hqf (Nat.minFac_dvd k)
        have h2 : k.minFac < k + 1 := by
          have := Nat.minFac_le (show 0 < k by omega)
          omega
        have := primeCount_lt_of_lt hqf h2
        omega
      by_cases hm : m = 0
      · subst hm
        obtain rfl : k = k1 := by simpa using heqk
        have hpndvd : ¬ p ∣ k := hndvd
        have hfac' : ∀ q, q.Prime → q ∣ k → i + 1 ≤ primeCount q := by
          intro q hq hqd
          have hle := hfac q hq hqd
          rcases Nat.lt_or_ge i (primeCount q) with h' | h'
          · omega
          · have hqi : primeCount q = i := by omega
            obtain rfl : q = p := primeCount_inj hq hp hqi hpc
            exact absurd hqd hpndvd
        obtain ⟨fuel, l, gpf, hrun, hprod, hallp, hsort, hne, hinvf, hbound⟩ :=
          ihd (primeCount (k + 1) - (i + 1)) (by omega) gp1 (i + 1) acc hinv1
            (by omega) hfac' rfl
        refine ⟨max f₁ (max f₂ fuel) + 1, l, gpf, ?_, hprod, hallp, hsort, hne, hinvf,
          fun q hq => by have := hbound q hq; omega⟩
        intro fuel' hle
        obtain ⟨f₃, rfl⟩ : ∃ f₃, fuel' = f₃ + 1 := ⟨fuel' - 1, by omega⟩
        have e1 := hnext f₃ (by omega)
        have e2 : divideOut p k acc f₃ = some (k, acc) := by
          rw [hdiv f₃ (by omega)]
          simp
        rw [factorizeLoop_succ]
        simp only [e1, e2, if_neg (show ¬ k = 1 by omega)]
        exact hrun f₃ (by omega)
      · by_cases hk11 : k1 = 1
        · subst hk11
          refine ⟨max f₁ f₂ + 1, List.replicate m p, gp1, ?_, ?_, ?_, ?_, ?_, hinv1, ?_⟩
          · intro fuel' hle
            obtain ⟨f₃, rfl⟩ : ∃ f₃, fuel' = f₃ + 1 := ⟨fuel' - 1, by omega⟩
            have e1 := hnext f₃ (by omega)
            have e2 := hdiv f₃ (by omega)
            rw [factorizeLoop_succ]
            simp only [e1, e2, eq_self_iff_true, if_true]
          · rw [List.prod_replicate, heqk, Nat.mul_one]
          · intro q hq
            rw [List.eq_of_mem_replicate hq]
            exact hp
          · exact List.pairwise_replicate.mpr (Or.inr le_rfl)
          · intro hnil
            have := congrArg List.length hnil
            simp at this
            omega
          · intro q hq
            rw [List.eq_of_mem_replicate hq]
            omega
        · have hpm : 2 ≤ p ^ m := by
            have h1 : 2 ^ 1 ≤ 2 ^ m := Nat.pow_le_pow_right (by omega) (by omega)
            have h2 : 2 ^ m ≤ p ^ m := Nat.pow_le_pow_left hp.two_le m
            simpa using le_trans h1 h2
          have hk1lt : k1 < k := by
            have h1 : k1 < p ^ m * k1 :=
              (Nat.lt_mul_iff_one_lt_left (by omega)).mpr (by omega)
            omega
          have hfac' : ∀ q, q.Prime → q ∣ k1 → i + 1 ≤ primeCount q := by
            intro q hq hqd
            have hqk : q ∣ k := heqk ▸ hqd.mul_left (p ^ m)
            have hle := hfac q hq hqk
            rcases Nat.lt_or_ge i (primeCount q) with h' | h'
            · omega
            · have hqi : primeCount q = i := by omega
              obtain rfl : q = p := primeCount_inj hq hp hqi hpc
              exact absurd hqd hndvd
          obtain ⟨fuel, l, gpf, hrun, hprod, hallp, hsort, hne, hinvf, hbound⟩ :=
            ihk k1 hk1lt (by omega) (primeCount (k1 + 1) - (i + 1)) gp1 (i + 1)
              (acc ++ List.replicate m p) hinv1 (by omega) hfac' rfl
          refine ⟨max f₁ (max f₂ fuel) + 1, List.replicate m p ++ l, gpf, ?_, ?_, ?_,
            ?_, ?_, hinvf, ?_⟩
          · intro fuel' hle
            obtain ⟨f₃, rfl⟩ : ∃ f₃, fuel' = f₃ + 1 := ⟨fuel' - 1, by omega⟩
            have e1 := hnext f₃ (by omega)
            have e2 := hdiv f₃ (by omega)
            rw [factorizeLoop_succ]
            simp only [e1, e2, if_neg hk11]
            have hr := hrun f₃ (by omega)
            rw [List.append_assoc] at hr
            exact hr
          · rw [List.prod_append, List.prod_replicate, hprod, heqk]
          · intro q hq
            rcases List.mem_append.mp hq with hq | hq
            · rw [List.eq_of_mem_replicate hq]
              exact hp
            · exact hallp q hq
          · refine List.pairwise_append.mpr
              ⟨List.pairwise_replicate.mpr (Or.inr le_rfl), hsort, ?_⟩
            intro a ha b hb
            rw [List.eq_of_mem_replicate ha]
            have hbq := hallp b hb
            have hbc := hbound b hb
            by_contra hlt
            push_neg at hlt
            have := primeCount_lt_of_lt hbq hlt
            omega
          · intro hnil
            obtain ⟨h1, -⟩ := List.append_eq_nil.mp hnil
            have := congrArg List.length h1
            simp at this
            omega
          · intro q hq
            rcases List.mem_append.mp hq with hq | hq
            · rw [List.eq_of_mem_replicate hq]
              omega
            · have := hbound q hq
              omega

lemma factorize_one {gp : GlobalPrimes} (h : CacheInv gp) (buf : List Nat) :
    ∃ fuel gpf, ∀ fuel', fuel ≤ fuel' → factorize gp 1 buf fuel' = some ([1], gpf) := by
  obtain ⟨f₁, p, gp1, hnext, hinv1, hpre1, hlen1, hget1, hp, hpc⟩ :=
    primesNext_exists h (Nat.zero_le gp.primes.length)
  have hmod : ¬ (1 % p = 0) := by
    have h2 := hp.two_le
    have h1 : 1 % p = 1 := Nat.mod_eq_of_lt (by omega)
    omega
  refine ⟨f₁ + 1, gp1, ?_⟩
  intro fuel' hle
  obtain ⟨f₃, rfl⟩ : ∃ f₃, fuel' = f₃ + 1 := ⟨fuel' - 1, by omega⟩
  have e1 := hnext f₃ (by omega)
  have e2 : divideOut p 1 [] f₃ = some (1, []) := by
    cases f₃ with
    | zero => rw [divideOut_zero_eq, if_neg hmod]
    | succ f => rw [divideOut_succ, if_neg hmod]
  have hloop : factorizeLoop gp Primes.new 1 [] (f₃ + 1) = some (1, [], gp1) := by
    show factorizeLoop gp ⟨0⟩ 1 [] (f₃ + 1) = _
    rw [factorizeLoop_succ]
    simp only [e1, e2, eq_self_iff_true, if_true]
  simp only [factorize, hloop]
  rfl

lemma factorize_zero {gp : GlobalPrimes} (h : CacheInv gp) (buf : List Nat)
    (fuel : Nat) : factorize gp 0 buf fuel = none := by
  cases fuel with
  | zero => rfl
  | succ f =>
    have hloop : factorizeLoop gp Primes.new 0 [] (f + 1) = none := by
      show factorizeLoop gp ⟨0⟩ 0 [] (f + 1) = none
      rw [factorizeLoop_succ]
      cases hnext : primesNext f gp ⟨0⟩ with
      | none => simp only [hnext]
      | some trip =>
        obtain ⟨p, gp1, it1⟩ := trip
        obtain ⟨-, -, -, -, hp, -⟩ := primesNext_some h hnext
        have hzero : divideOut p 0 [] f = none := divideOut_zero_none hp.two_le [] f
        simp only [hnext, hzero]
    simp only [factorize, hloop]

/-! ## Reachable states satisfy the invariant -/

lemma reachable_cacheInv {gp : GlobalPrimes} (h : Reachable gp) : CacheInv gp := by
  induction h with
  | new => exact cacheInv_new
  | reset gp _ _ => exact cacheInv_reset gp
  | upto gp gp' max fuel _ hsome ih => exact (generate_upto_some ih hsome).1
  | count gp gp' c fuel _ hsome ih => exact (generate_count_some ih hsome).1

/-! ## `nth_prime` lemmas and per-operation partial-correctness wrappers -/

lemma nth_prime_exists {gp : GlobalPrimes} {k : Nat} (h : CacheInv gp) :
    ∃ fuel p gpf, (∀ fuel', fuel ≤ fuel' → nth_prime gp k fuel' = some (p, gpf)) ∧
      CacheInv gpf ∧ gp.primes <+: gpf.primes ∧ p.Prime ∧ primeCount p = k := by
  obtain ⟨fuel, gpf, hrun⟩ := generate_count_exists (k + 1) h
  obtain ⟨hinvf, hpref, hlenf⟩ := generate_count_some h (hrun fuel le_rfl)
  cases hget : gpf.primes.get? k with
  | none =>
    exfalso
    have := List.get?_eq_none.mp hget
    omega
  | some p =>
    have hchar : p.Prime ∧ primeCount p = k := by
      refine primesBelowL_get? (n := gpf.curCandidate) ?_
      rw [← hinvf.primes_eq]
      exact hget
    refine ⟨fuel, p, gpf, ?_, hinvf, hpref, hchar.1, hchar.2⟩
    intro fuel' hle
    simp only [nth_prime, hrun fuel' hle, hget]

lemma nth_prime_some {gp gp' : GlobalPrimes} {k fuel p : Nat} (h : CacheInv gp)
    (hr : nth_prime gp k fuel = some (p, gp')) :
    CacheInv gp' ∧ gp.primes <+: gp'.primes := by
  unfold nth_prime at hr
  cases hcnt : gp.generate_count (k + 1) fuel with
  | none =>
    simp only [hcnt] at hr
    cases hr
  | some gp1 =>
    simp only [hcnt] at hr
    obtain ⟨h1, h2, -⟩ := generate_count_some h hcnt
    cases hget : gp1.primes.get? k with
    | none =>
      simp only [hget] at hr
      cases hr
    | some q =>
      simp only [hget, Option.some.injEq, Prod.mk.injEq] at hr
      obtain ⟨rfl, rfl⟩ := hr
      exact ⟨h1, h2⟩

lemma is_prime_some {gp gp' : GlobalPrimes} {n fuel : Nat} {b : Bool} (h : CacheInv gp)
    (hr : is_prime gp n fuel = some (b, gp')) :
    CacheInv gp' ∧ gp.primes <+: gp'.primes := by
  unfold is_prime at hr
  cases hup : gp.generate_upto n fuel with
  | none =>
    simp only [hup] at hr
    cases hr
  | some gp1 =>
    simp only [hup, Option.some.injEq, Prod.mk.injEq] at hr
    obtain ⟨-, rfl⟩ := hr
    obtain ⟨h1, h2, -⟩ := generate_upto_some h hup
    exact ⟨h1, h2⟩

lemma factorize_some {gp gp' : GlobalPrimes} {n fuel : Nat} {buf l : List Nat}
    (h : CacheInv gp) (hr : factorize gp n buf fuel = some (l, gp')) :
    CacheInv gp' ∧ gp.primes <+: gp'.primes := by
  unfold factorize at hr
  cases hloop : factorizeLoop gp Primes.new n [] fuel with
  | none =>
    simp only [hloop] at hr
    cases hr
  | some r =>
    obtain ⟨k1, acc, gp1⟩ := r
    simp only [hloop, Option.some.injEq, Prod.mk.injEq] at hr
    obtain ⟨-, rfl⟩ := hr
    exact factorizeLoop_some h hloop

lemma generate_upto_fast {gp : GlobalPrimes} {M y : Nat}
    (hy : gp.primes.getLast? = some y) (hMy : M ≤ y) :
    ∀ fuel, gp.generate_upto M fuel = some gp := by
  intro fuel
  unfold GlobalPrimes.generate_upto
  split
  · rename_i hnone
    rw [GlobalPrimes.last_prime, hy] at hnone
    cases hnone
  · rename_i last hlast
    rw [GlobalPrimes.last_prime, hy] at hlast
    obtain rfl : y = last := Option.some.inj hlast
    rw [if_pos hMy]

/-! ## Wheel stream lemmas -/

lemma wheelState_zero : wheelState 0 = GlobalPrimes.new := rfl

lemma wheelState_succ (k : Nat) :
    wheelState (k + 1) = (wheelState k).advanceWheel := by
  unfold wheelState
  rw [Function.iterate_succ_apply']

lemma wheelState_cursorOk (k : Nat) : CursorOk (wheelState k) := by
  induction k with
  | zero => exact ⟨by decide, by decide⟩
  | succ k ih =>
    rw [wheelState_succ]
    exact cursorOk_advance ih

lemma wheelStream_zero : wheelStream 0 = 7 := rfl

lemma wheelStream_lt_succ (k : Nat) : wheelStream k < wheelStream (k + 1) := by
  unfold wheelStream
  rw [wheelState_succ]
  exact curCandidate_advance_lt (wheelState_cursorOk k)

lemma wheelStream_strictMono : StrictMono wheelStream :=
  strictMono_nat_of_lt_succ wheelStream_lt_succ

lemma wheelStream_seven_le (k : Nat) : 7 ≤ wheelStream k := by
  induction k with
  | zero => rw [wheelStream_zero]
  | succ k ih =>
    have := wheelStream_lt_succ k
    omega

lemma wheelStream_coprime (k : Nat) : Nat.Coprime (wheelStream k) 30 :=
  coprime30_iff.mpr (curCandidate_mod30 (wheelState_cursorOk k))

lemma wheelStream_surj {n : Nat} (h7 : 7 ≤ n) (hco : Nat.Coprime n 30) :
    ∃ k, wheelStream k = n := by
  have hmem : n % 30 ∈ WHEEL := coprime30_iff.mp hco
  have hex : ∃ k, n ≤ wheelStream k :=
    ⟨n, le_trans wheelStream_strictMono.le_apply le_rfl⟩
  by_cases h0 : Nat.find hex = 0
  · have h1 : n ≤ wheelStream 0 := h0 ▸ Nat.find_spec hex
    rw [wheelStream_zero] at h1
    exact ⟨0, by rw [wheelStream_zero]; omega⟩
  · obtain ⟨j, hj⟩ : ∃ j, Nat.find hex = j + 1 := ⟨Nat.find hex - 1, by omega⟩
    have hjlt : wheelStream j < n := by
      have := Nat.find_min hex (show j < Nat.find hex by omega)
      omega
    have hnext_le : wheelStream (j + 1) ≤ n := by
      have := curCandidate_advance_min (wheelState_cursorOk j) hmem hjlt
      unfold wheelStream
      rw [wheelState_succ]
      exact this
    have hge : n ≤ wheelStream (j + 1) := hj ▸ Nat.find_spec hex
    exact ⟨j + 1, by omega⟩

/-! ## Claim theorems -/

/-- C1: for every `M` in `[0, 10^6]` and every cache state satisfying the
Prime Cache invariant (in particular a fresh scope), `primes_upto(M)` run
to completion yields exactly the naive trial-division sieve of the
integers in `[2, M]` (the crate's own `dumb_prime_generator`): the primes
not exceeding `M`, in strictly ascending order with no gaps. -/
theorem c1_primes_upto_eq_naive_sieve (M : Nat) (hM : M ≤ 10 ^ 6)
    (gp : GlobalPrimes) (h : CacheInv gp) :
    ∃ fuel, ∀ fuel', fuel ≤ fuel' →
      primes_upto gp M fuel' = some (dumbPrimeGenerator M) := by
  obtain ⟨fuel, hrun⟩ := primes_upto_exists (M := M) h
  refine ⟨fuel, fun fuel' hle => ?_⟩
  rw [hrun fuel' hle, dumbPrimeGenerator_eq]

/-- Witness for C1 at `M = 30` on a fresh scope. -/
theorem c1_witness :
    30 ≤ 10 ^ 6 ∧ ∃ fuel, ∀ fuel', fuel ≤ fuel' →
      primes_upto GlobalPrimes.new 30 fuel' = some (dumbPrimeGenerator 30) :=
  ⟨by norm_num,
    c1_primes_upto_eq_naive_sieve 30 (by norm_num) GlobalPrimes.new cacheInv_new⟩

/-- C2: for every `n ≥ 2` and any prior buffer contents, `factorize(n, buf)`
terminates and leaves in the buffer exactly the multiset of prime factors
of `n` (a permutation of `Nat.primeFactorsList n`), in nondecreasing
order, with product `n`; the prior contents of the buffer are discarded. -/
theorem c2_factorize_prime_multiset (n : Nat) (hn : 2 ≤ n) (gp : GlobalPrimes)
    (h : CacheInv gp) (buf : List Nat) :
    ∃ fuel l gpf, (∀ fuel', fuel ≤ fuel' → factorize gp n buf fuel' = some (l, gpf)) ∧
      List.Pairwise (· ≤ ·) l ∧ (∀ q ∈ l, q.Prime) ∧ l.prod = n ∧
      l.Perm n.primeFactorsList := by
  obtain ⟨fuel, l, gpf, hrun, hprod, hallp, hsort, hne, hinvf, -⟩ :=
    factorizeLoop_exists n hn (primeCount (n + 1)) gp 0 [] h (Nat.zero_le _)
      (fun q _ _ => Nat.zero_le _) rfl
  refine ⟨fuel, l, gpf, ?_, hsort, hallp, hprod, Nat.primeFactorsList_unique hprod hallp⟩
  intro fuel' hle
  have hloop : factorizeLoop gp Primes.new n [] fuel' = some (1, l, gpf) :=
    hrun fuel' hle
  simp only [factorize, hloop]
  cases l with
  | nil => exact absurd rfl hne
  | cons a t => rfl

/-- Witness for C2 at `n = 6` on a fresh scope with a non-empty prior buffer. -/
theorem c2_witness :
    2 ≤ 6 ∧ ∃ fuel l gpf,
      (∀ fuel', fuel ≤ fuel' → factorize GlobalPrimes.new 6 [17] fuel' = some (l, gpf)) ∧
      List.Pairwise (· ≤ ·) l ∧ (∀ q ∈ l, q.Prime) ∧ l.prod = 6 ∧
      l.Perm (6 : Nat).primeFactorsList :=
  ⟨by norm_num,
    c2_factorize_prime_multiset 6 (by norm_num) GlobalPrimes.new cacheInv_new [17]⟩

/-- C3 (counterexample): contrary to the claim, `factorize(1, buf)` does
terminate — with fuel 10 on a fresh scope it returns with the buffer `[1]`,
reached through the trailing "if buffer is empty, push `n`" branch, so that
branch is not unreachable for `n = 1`. -/
theorem c3_counterexample :
    factorize GlobalPrimes.new 1 [] 10 = some ([1], GlobalPrimes.new) := by decide

/-- C3 (amended): `factorize(0, buf)` does not terminate — the inner
division loop diverges on the first prime because the residue 0 stays 0,
so the run is `none` for every fuel — while `factorize(1, buf)` terminates
immediately: on the first prime the residue is 1, the outer loop breaks
with the buffer still empty, and the trailing branch pushes `n = 1`. -/
theorem c3_amended_behavior (gp : GlobalPrimes) (h : CacheInv gp) (buf : List Nat) :
    (∀ fuel, factorize gp 0 buf fuel = none) ∧
    (∃ fuel gpf, ∀ fuel', fuel ≤ fuel' → factorize gp 1 buf fuel' = some ([1], gpf)) :=
  ⟨fun fuel => factorize_zero h buf fuel, factorize_one h buf⟩

/-- Witness for the amended C3 on a fresh scope. -/
theorem c3_witness :
    (∀ fuel, factorize GlobalPrimes.new 0 [] fuel = none) ∧
    (∃ fuel gpf, ∀ fuel', fuel ≤ fuel' →
      factorize GlobalPrimes.new 1 [] fuel' = some ([1], gpf)) :=
  c3_amended_behavior GlobalPrimes.new cacheInv_new []

/-- C4: for every `n` and cache state satisfying the invariant, `is_prime(n)`
terminates with `true` iff `n` is prime; in particular it is `false` for
`n < 2` (so for 0 and 1) and `true` for 2, 3, 5.  Mechanism: the cache is
extended until its largest entry — a prime — is at least `n`, and the
answer is produced by binary search over the ordered cached list. -/
theorem c4_is_prime_iff_prime (n : Nat) (gp : GlobalPrimes) (h : CacheInv gp) :
    ∃ fuel b gpf, (∀ fuel', fuel ≤ fuel' → is_prime gp n fuel' = some (b, gpf)) ∧
      (b = true ↔ n.Prime) ∧ (n < 2 → b = false) ∧
      ((n = 2 ∨ n = 3 ∨ n = 5) → b = true) ∧
      (∃ y, gpf.primes.getLast? = some y ∧ y.Prime ∧ n ≤ y) ∧
      CacheInv gpf ∧ gp.primes <+: gpf.primes := by
  obtain ⟨fuel, b, gpf, hrun, hinvf, hpref, hiff, y, hy, hyn⟩ := is_prime_exists (n := n) h
  obtain ⟨z, hz, hzp, -, -, -⟩ := cacheInv_last hinvf
  obtain rfl : y = z := Option.some.inj (hy.symm.trans hz)
  refine ⟨fuel, b, gpf, hrun, hiff, ?_, ?_, ⟨y, hy, hzp, hyn⟩, hinvf, hpref⟩
  · intro hn2
    cases hb : b with
    | false => rfl
    | true =>
      exfalso
      have := (hiff.mp hb).two_le
      omega
  · intro hn
    refine hiff.mpr ?_
    rcases hn with rfl | rfl | rfl
    · exact Nat.prime_two
    · exact Nat.prime_three
    · exact Nat.prime_five

/-- Witness for C4 at `n = 5` on a fresh scope. -/
theorem c4_witness :
    ∃ fuel b gpf,
      (∀ fuel', fuel ≤ fuel' → is_prime GlobalPrimes.new 5 fuel' = some (b, gpf)) ∧
      (b = true ↔ Nat.Prime 5) ∧ ((5 : Nat) < 2 → b = false) ∧
      (((5 : Nat) = 2 ∨ (5 : Nat) = 3 ∨ (5 : Nat) = 5) → b = true) ∧
      (∃ y, gpf.primes.getLast? = some y ∧ y.Prime ∧ 5 ≤ y) ∧
      CacheInv gpf ∧ GlobalPrimes.new.primes <+: gpf.primes :=
  c4_is_prime_iff_prime 5 GlobalPrimes.new cacheInv_new

set_option maxRecDepth 100000 in
set_option maxHeartbeats 8000000 in
/-- C5: for every zero-based `k`, `nth_prime(k)` terminates (after ensuring
the cache holds at least `k + 1` primes and reading position `k`) with the
(k+1)-th prime in ascending order — the prime `p` with exactly `k` primes
below it — which also equals the (k+1)-th element yielded by `primes()`;
concretely `nth_prime 0 = 2`, `1 ↦ 3`, `2 ↦ 5`, `3 ↦ 7`, `9 ↦ 29`,
`99 ↦ 541`. -/
theorem c5_nth_prime_indexing (k : Nat) (gp : GlobalPrimes) (h : CacheInv gp) :
    ∃ fuel p gpf, (∀ fuel', fuel ≤ fuel' → nth_prime gp k fuel' = some (p, gpf)) ∧
      p.Prime ∧ primeCount p = k ∧
      (∃ fuel₂ l gp₂ it₂, (∀ fuel', fuel₂ ≤ fuel' →
          primesTake gp Primes.new fuel' (k + 1) = some (l, gp₂, it₂)) ∧
        l.get? k = some p) ∧
      (k = 0 → p = 2) ∧ (k = 1 → p = 3) ∧ (k = 2 → p = 5) ∧ (k = 3 → p = 7) ∧
      (k = 9 → p = 29) ∧ (k = 99 → p = 541) := by
  obtain ⟨fuel, p, gpf, hrun, hinvf, hpref, hp, hpc⟩ := nth_prime_exists (k := k) h
  obtain ⟨f₂, l, gp₂, htake, hinv₂, hpre₂, hlen₂, hlenl, hvals⟩ :=
    primesTake_exists (k := k + 1) gp 0 h (Nat.zero_le _)
  have hval : l.get? k = some p := by
    rw [hvals k (by omega)]
    cases hq : gp₂.primes.get? (0 + k) with
    | none =>
      exfalso
      have := List.get?_eq_none.mp hq
      omega
    | some q =>
      have hchar : q.Prime ∧ primeCount q = 0 + k := by
        refine primesBelowL_get? (n := gp₂.curCandidate) ?_
        rw [← hinv₂.primes_eq]
        exact hq
      obtain rfl : q = p := primeCount_inj hchar.1 hp (by simpa using hchar.2) hpc
      rfl
  have hcon : ∀ m, Nat.Prime m → primeCount m = k → p = m := fun m hm hmc =>
    primeCount_inj hp hm hpc hmc
  refine ⟨fuel, p, gpf, hrun, hp, hpc,
    ⟨f₂, l, gp₂, ⟨0 + (k + 1)⟩, fun fuel' hle => htake fuel' hle, hval⟩,
    ?_, ?_, ?_, ?_, ?_, ?_⟩
  · intro hk; subst hk; exact hcon 2 Nat.prime_two (by decide)
  · intro hk; subst hk; exact hcon 3 Nat.prime_three (by decide)
  · intro hk; subst hk; exact hcon 5 Nat.prime_five (by decide)
  · intro hk; subst hk; exact hcon 7 (by norm_num) (by decide)
  · intro hk; subst hk; exact hcon 29 (by norm_num) (by decide)
  · intro hk; subst hk; exact hcon 541 (by norm_num) (by decide)

/-- Witness for C5 at `k = 3` on a fresh scope. -/
theorem c5_witness :
    ∃ fuel p gpf,
      (∀ fuel', fuel ≤ fuel' → nth_prime GlobalPrimes.new 3 fuel' = some (p, gpf)) ∧
      p.Prime ∧ primeCount p = 3 ∧
      (∃ fuel₂ l gp₂ it₂, (∀ fuel', fuel₂ ≤ fuel' →
          primesTake GlobalPrimes.new Primes.new fuel' (3 + 1) = some (l, gp₂, it₂)) ∧
        l.get? 3 = some p) ∧
      ((3 : Nat) = 0 → p = 2) ∧ ((3 : Nat) = 1 → p = 3) ∧ ((3 : Nat) = 2 → p = 5) ∧
      ((3 : Nat) = 3 → p = 7) ∧ ((3 : Nat) = 9 → p = 29) ∧ ((3 : Nat) = 99 → p = 541) :=
  c5_nth_prime_indexing 3 GlobalPrimes.new cacheInv_new

/-- C6: on any state satisfying the invariant, `generate_upto M` with the
current last prime already `≥ M` returns immediately without changing the
cache (so `extend_upto 0` … `extend_upto 5` are no-ops on the seed, whose
last prime is 5); in general it terminates with the largest cached prime
`≥ M`, and, when extension was needed, the new last prime is the least
prime `≥ M` — extension stops as soon as an appended prime reaches `M`. -/
theorem c6_generate_upto_behavior (gp : GlobalPrimes) (M : Nat) (h : CacheInv gp) :
    (∀ y, gp.primes.getLast? = some y → M ≤ y →
      ∀ fuel, gp.generate_upto M fuel = some gp) ∧
    ∃ fuel gp', (∀ fuel', fuel ≤ fuel' → gp.generate_upto M fuel' = some gp') ∧
      CacheInv gp' ∧ gp.primes <+: gp'.primes ∧
      ∃ y, gp'.primes.getLast? = some y ∧ M ≤ y ∧
        (∀ x ∈ gp'.primes, x ≤ y) ∧
        (∀ z, gp.primes.getLast? = some z → z < M →
          y.Prime ∧ ∀ q, q.Prime → M ≤ q → y ≤ q) := by
  refine ⟨fun y hy hMy fuel => generate_upto_fast hy hMy fuel, ?_⟩
  obtain ⟨z, hz, hzp, hzlt, hz5, hzmax⟩ := cacheInv_last h
  by_cases hfast : M ≤ z
  · refine ⟨0, gp, fun fuel' _ => generate_upto_fast hz hfast fuel', h,
      List.prefix_rfl, z, hz, hfast, hzmax, ?_⟩
    intro z' hz' hlt
    obtain rfl : z = z' := Option.some.inj (hz.symm.trans hz')
    omega
  · have hbelow : ∀ x ∈ gp.primes, x < M := fun x hx => by
      have := hzmax x hx
      omega
    obtain ⟨fuel, gp', hrun⟩ := generateUptoLoop_exists M h
    obtain ⟨hinv', hpre', y, hy, hyM, hyp, hymin⟩ := generateUptoLoop_some h hbelow hrun
    refine ⟨fuel, gp', ?_, hinv', hpre', y, hy, hyM, ?_, ?_⟩
    · intro fuel' hle
      unfold GlobalPrimes.generate_upto
      split
      · rename_i hnone
        rw [GlobalPrimes.last_prime, hz] at hnone
        cases hnone
      · rename_i last hlast
        rw [GlobalPrimes.last_prime, hz] at hlast
        obtain rfl : z = last := Option.some.inj hlast
        rw [if_neg hfast]
        exact generateUptoLoop_mono_le hle hrun
    · obtain ⟨w, hw, hwp, hwlt, hw5, hwmax⟩ := cacheInv_last hinv'
      obtain rfl : y = w := Option.some.inj (hy.symm.trans hw)
      exact hwmax
    · intro z' hz' hlt
      exact ⟨hyp, hymin⟩

/-- Witness for C6 on the seed state with `M = 0` (an immediate no-op,
the seed last prime being 5). -/
theorem c6_witness :
    GlobalPrimes.new.generate_upto 0 0 = some GlobalPrimes.new :=
  (c6_generate_upto_behavior GlobalPrimes.new 0 cacheInv_new).1 5 rfl (by omega) 0

/-- C7: every public operation preserves the Prime Cache invariants: from
any state satisfying them, whenever `generate_upto`, `generate_count`, an
iterator advance, `nth_prime`, `is_prime` or `factorize` returns, the new
cached list satisfies the invariant, is strictly ascending, begins with
the literal prefix `[2, 3, 5]`, and has the old list as a prefix
(append-only); only `reset` replaces the list, restoring `[2, 3, 5]`. -/
theorem c7_operations_preserve_invariants (gp : GlobalPrimes) (h : CacheInv gp) :
    (∀ M fuel gp', gp.generate_upto M fuel = some gp' →
        CacheInv gp' ∧ List.Pairwise (· < ·) gp'.primes ∧
        [2, 3, 5] <+: gp'.primes ∧ gp.primes <+: gp'.primes) ∧
    (∀ c fuel gp', gp.generate_count c fuel = some gp' →
        CacheInv gp' ∧ List.Pairwise (· < ·) gp'.primes ∧
        [2, 3, 5] <+: gp'.primes ∧ gp.primes <+: gp'.primes) ∧
    (∀ fuel it p gp' it', primesNext fuel gp it = some (p, gp', it') →
        CacheInv gp' ∧ List.Pairwise (· < ·) gp'.primes ∧
        [2, 3, 5] <+: gp'.primes ∧ gp.primes <+: gp'.primes) ∧
    (∀ k fuel p gp', nth_prime gp k fuel = some (p, gp') →
        CacheInv gp' ∧ gp.primes <+: gp'.primes) ∧
    (∀ n fuel b gp', is_prime gp n fuel = some (b, gp') →
        CacheInv gp' ∧ gp.primes <+: gp'.primes) ∧
    (∀ n buf fuel l gp', factorize gp n buf fuel = some (l, gp') →
        CacheInv gp' ∧ gp.primes <+: gp'.primes) ∧
    (gp.reset.primes = [2, 3, 5] ∧ CacheInv gp.reset) := by
  refine ⟨?_, ?_, ?_, ?_, ?_, ?_, rfl, cacheInv_reset gp⟩
  · intro M fuel gp' hr
    obtain ⟨h1, h2, -⟩ := generate_upto_some h hr
    exact ⟨h1, cacheInv_pairwise h1, cacheInv_has_seed h1, h2⟩
  · intro c fuel gp' hr
    obtain ⟨h1, h2, -⟩ := generate_count_some h hr
    exact ⟨h1, cacheInv_pairwise h1, cacheInv_has_seed h1, h2⟩
  · intro fuel it p gp' it' hr
    obtain ⟨i⟩ := it
    obtain ⟨h1, h2, -, -, -, -⟩ := primesNext_some h hr
    exact ⟨h1, cacheInv_pairwise h1, cacheInv_has_seed h1, h2⟩
  · intro k fuel p gp' hr
    exact nth_prime_some h hr
  · intro n fuel b gp' hr
    exact is_prime_some h hr
  · intro n buf fuel l gp' hr
    exact factorize_some h hr

/-- Witness for C7: the reset component on a fresh scope. -/
theorem c7_witness :
    GlobalPrimes.new.reset.primes = [2, 3, 5] ∧ CacheInv GlobalPrimes.new.reset :=
  (c7_operations_preserve_invariants GlobalPrimes.new cacheInv_new).2.2.2.2.2.2

/-- C8: the state the spec declares valid is reachable — advancing a fresh
iterator five times yields `[2, 3, 5, 7, 11]` and leaves `prime_index = 5`
— but after `clear_prime_cache` the next advance does NOT succeed: the
extension only grows the cache to `[2, 3, 5, 7]` (4 entries) and the read
`primes[5]` is out of bounds (a panic, modelled by `none`), for every
fuel.  The claim that the read is always in bounds fails on the code. -/
theorem c8_next_after_reset_panics :
    (primesTake GlobalPrimes.new Primes.new 20 5 =
      some ([2, 3, 5, 7, 11], ⟨[2, 3, 5, 7, 11], 3, 0⟩, ⟨5⟩)) ∧
    ∀ (gp : GlobalPrimes) (fuel : Nat), 1 ≤ fuel →
      primesNext fuel (clear_prime_cache gp) ⟨5⟩ = none := by
  constructor
  · decide
  · intro gp fuel hfuel
    obtain ⟨f, rfl⟩ : ∃ f, fuel = f + 1 := ⟨fuel - 1, by omega⟩
    have hidx : (clear_prime_cache gp).primes.length ≤ 5 := by
      show (3 : Nat) ≤ 5
      omega
    have hlast : (clear_prime_cache gp).last_prime = some 5 := rfl
    have hup : (clear_prime_cache gp).generate_upto (5 * 3 / 2) (f + 1) =
        some ⟨[2, 3, 5, 7], 2, 0⟩ := by
      show GlobalPrimes.generate_upto ⟨[2, 3, 5], 1, 0⟩ 7 (f + 1) =
        some ⟨[2, 3, 5, 7], 2, 0⟩
      unfold GlobalPrimes.generate_upto
      show (if (7 : Nat) ≤ 5 then some (⟨[2, 3, 5], 1, 0⟩ : GlobalPrimes)
          else generateUptoLoop 7 ⟨[2, 3, 5], 1, 0⟩ (f + 1)) =
        some ⟨[2, 3, 5, 7], 2, 0⟩
      rw [if_neg (by omega), generateUptoLoop_succ, if_pos (by decide),
        if_pos (by decide)]
      rfl
    rw [primesNext_eq_extend hidx hlast hup]
    rfl

/-- Witness for C8's universally quantified part at fuel 5 on a fresh scope. -/
theorem c8_witness :
    primesNext 5 (clear_prime_cache GlobalPrimes.new) ⟨5⟩ = none :=
  c8_next_after_reset_panics.2 GlobalPrimes.new 5 (by omega)

/-- C9: the wheel enumerator starting from the seed cursor produces, in
strictly ascending order with first candidate 7, exactly the positive
integers `≥ 7` coprime to 30; the current candidate of a cursor is
`wheel_base + WHEEL[wheel_index]`, advancing increments the index, and at
index 7 (the last of 8) it wraps to 0 adding 30 to the base; the
candidates never include 1 or the seed primes 2, 3, 5. -/
theorem c9_wheel_enumerator :
    wheelStream 0 = 7 ∧
    StrictMono wheelStream ∧
    (∀ k, 7 ≤ wheelStream k ∧ Nat.Coprime (wheelStream k) 30) ∧
    (∀ n, 7 ≤ n → Nat.Coprime n 30 → ∃ k, wheelStream k = n) ∧
    (∀ gp : GlobalPrimes, gp.curCandidate = gp.wheel_base + WHEEL.getD gp.wheel_index 0) ∧
    (∀ k, wheelState (k + 1) = (wheelState k).advanceWheel) ∧
    (∀ gp : GlobalPrimes, gp.wheel_index + 1 < 8 →
      gp.advanceWheel.wheel_index = gp.wheel_index + 1 ∧
      gp.advanceWheel.wheel_base = gp.wheel_base) ∧
    (∀ gp : GlobalPrimes, gp.wheel_index + 1 = 8 →
      gp.advanceWheel.wheel_index = 0 ∧
      gp.advanceWheel.wheel_base = gp.wheel_base + 30) ∧
    (∀ k, wheelStream k ≠ 1 ∧ wheelStream k ≠ 2 ∧ wheelStream k ≠ 3 ∧
      wheelStream k ≠ 5) := by
  have hlen : WHEEL.length = 8 := rfl
  refine ⟨wheelStream_zero, wheelStream_strictMono,
    fun k => ⟨wheelStream_seven_le k, wheelStream_coprime k⟩,
    fun n h7 hco => wheelStream_surj h7 hco,
    fun gp => rfl,
    wheelState_succ,
    ?_, ?_, ?_⟩
  · intro gp hlt
    unfold GlobalPrimes.advanceWheel
    rw [hlen, if_neg (by omega)]
    exact ⟨rfl, rfl⟩
  · intro gp heq
    unfold GlobalPrimes.advanceWheel
    rw [hlen, if_pos heq]
    exact ⟨rfl, rfl⟩
  · intro k
    have := wheelStream_seven_le k
    omega

/-- Witness for C9's surjectivity component at `n = 49`. -/
theorem c9_witness : ∃ k, wheelStream k = 49 :=
  c9_wheel_enumerator.2.2.2.1 49 (by norm_num) (by decide)

/-- C10: in every reachable state of the Prime Cache — after construction,
reset, and any returning sequence of `generate_upto` / `generate_count`
calls — the cached list is non-empty, so `last_prime`'s unwrap of the last
element never panics (it is always `some`). -/
theorem c10_last_prime_never_panics (gp : GlobalPrimes) (h : Reachable gp) :
    gp.primes ≠ [] ∧ ∃ y, gp.last_prime = some y := by
  have hinv := reachable_cacheInv h
  obtain ⟨y, hy, -, -, -, -⟩ := cacheInv_last hinv
  refine ⟨?_, y, hy⟩
  intro hnil
  rw [hnil] at hy
  cases hy

/-- Witness for C10 on the freshly constructed state. -/
theorem c10_witness :
    GlobalPrimes.new.primes ≠ [] ∧ ∃ y, GlobalPrimes.new.last_prime = some y :=
  c10_last_prime_never_panics GlobalPrimes.new Reachable.new
